import Mathlib

/-!
# Verification of the typescript-graph core

Shallow embedding of the typescript-graph repository's core pipeline:

* the graph model (`src/models.ts`),
* the graph filter (`filterGraph`),
* the directory-tree builder and mermaid serializer (`src/mermaidify.ts`).

JS strings are modelled as Lean `String` (worked on through their character
lists, so that everything evaluates inside the kernel), JS arrays as `List`,
and the pieces of Node's `path.posix` module that the source uses are embedded
explicitly.  Functions keep the names of the source functions they embed.
-/

/-! ## Graph model (src/models.ts) -/

/-- A vertex of the dependency graph, one per source file.  `src/models.ts`
declares `path` and `fileName`; the serializer additionally reads the display
name (spelled `node.name` in `src/mermaidify.ts`) and the optional
`isDirectory` / `highlight` flags of the spec's data model, which we model as
booleans defaulting to false. -/
structure Node where
  path : String
  fileName : String
  isDirectory : Bool := false
  highlight : Bool := false
  deriving DecidableEq, Repr

/-- A directed edge of the dependency graph (`src/models.ts`). -/
structure Relation where
  «from» : Node
  «to» : Node
  fullText : String
  deriving DecidableEq, Repr

/-- Modelled from the spec: `Graph` is the record `{ nodes, relations }`
(the current `models.ts` exporting it is not part of the provided sources). -/
structure Graph where
  nodes : List Node
  relations : List Relation
  deriving DecidableEq, Repr

/-- Node identity is path identity (`src/models.ts`). -/
def isSameNode (a b : Node) : Bool :=
  a.path == b.path

/-- Relation identity is the endpoint-path pair (`src/models.ts`). -/
def isSameRelation (a b : Relation) : Bool :=
  isSameNode a.from b.from && isSameNode a.to b.to

/-! ## Character-list string utilities

JS string primitives used by the source, implemented on `List Char` so that
they compute by kernel reduction. -/

/-- Prepend a character to the first fragment of a fragment list. -/
def consHead (c : Char) : List (List Char) → List (List Char)
  | h :: t => (c :: h) :: t
  | [] => [[c]]

/-- JS `String.prototype.split` with a single-character separator:
`"a//b".split('/') = ["a","","b"]`, `"".split('/') = [""]`. -/
def splitC (sep : Char) : List Char → List (List Char)
  | [] => [[]]
  | c :: rest =>
    if c = sep then [] :: splitC sep rest
    else consHead c (splitC sep rest)

/-- JS `Array.prototype.join` on character lists, with an arbitrary
separator string. -/
def joinC (sep : List Char) : List (List Char) → List Char
  | [] => []
  | [p] => p
  | p :: ps => p ++ sep ++ joinC sep ps

/-- `String`-level split on a separator character. -/
def strSplit (sep : Char) (s : String) : List String :=
  (splitC sep s.data).map String.mk

/-- `String`-level join with a separator character. -/
def strJoin (sep : Char) (parts : List String) : String :=
  String.mk (joinC [sep] (parts.map String.data))

/-- ASCII lower-casing of one character (the fragment of JS `toLowerCase`
exercised by the source: the substring filters). -/
def lowerChar (c : Char) : Char :=
  if 'A' ≤ c ∧ c ≤ 'Z' then Char.ofNat (c.toNat + 32) else c

/-- JS `String.prototype.toLowerCase` (ASCII range). -/
def lowerStr (s : String) : String :=
  String.mk (s.data.map lowerChar)

/-- Does `needle` occur as a contiguous run inside `hay`?
(JS `String.prototype.includes`.) -/
def isInfixOfC (needle : List Char) (hay : List Char) : Bool :=
  match hay with
  | [] => needle == []
  | _ :: rest => needle.isPrefixOf hay || isInfixOfC needle rest

/-- JS `s.includes(sub)`. -/
def strIncludes (s sub : String) : Bool :=
  isInfixOfC sub.data s.data

/-! ## Node's `path.posix.join`

`src/mermaidify.ts` calls `path.join` (POSIX form in this repository's use).
`join` concatenates its non-empty arguments with `/` and normalizes the
result; `normalize` resolves `.`/`..`/empty segments. -/

/-- One segment step of Node's `normalizeString`: skip empty and `.` segments;
on `..` pop a preceding real name, keep stacking `..` at the root when
`allowAbove` (relative paths), drop it otherwise; push any other segment.
The accumulator holds the processed segments in reverse order. -/
def normStep (allowAbove : Bool) (stack : List String) (seg : String) : List String :=
  if seg = "" ∨ seg = "." then stack
  else if seg = ".." then
    match stack with
    | top :: rest => if top ≠ ".." then rest else (if allowAbove then seg :: stack else stack)
    | [] => if allowAbove then [seg] else []
  else seg :: stack

/-- Node's `path.posix.normalize`. -/
def posixNormalize (p : String) : String :=
  if p = "" then "." else
  let isAbs : Bool := p.data.head? == some '/'
  let trailing : Bool := p.data.getLast? == some '/'
  let stack := ((splitC '/' p.data).map String.mk).foldl (normStep (!isAbs)) []
  let core := joinC ['/'] ((stack.reverse).map String.data)
  if core = [] then (if isAbs then "/" else if trailing then "./" else ".")
  else String.mk ((if isAbs then ['/'] else []) ++ core ++ (if trailing then ['/'] else []))

/-- Node's `path.posix.join`. -/
def pathJoin (parts : List String) : String :=
  let nonempty := parts.filter (fun s => s != "")
  if nonempty = [] then "." else posixNormalize (strJoin '/' nonempty)

/-! ## Directory computation (src/mermaidify.ts, getDirectoryPath) -/

/-- `getDirectoryPath` of `createDirAndNodesTree` (src/mermaidify.ts lines
53-66): the `node_modules` bucket, `undefined` for a top-level file, otherwise
`path.join` of all segments but the last. -/
def getDirectoryPath (filePath : String) : Option String :=
  let array := strSplit '/' filePath
  if array.contains "node_modules" then some "node_modules"
  else if array.length = 1 then none
  else some (pathJoin (array.take (array.length - 1)))

/-! ## Identifier sanitization (src/mermaidify.ts, fileNameToMermaidId) -/

/-- The single characters on which the split regex of `fileNameToMermaidId`
really splits.  The regex source is
`@|\[|\]|-|>|<|{|}|\(|\)|=|&|\|~|,|"|%|\^|\*|_` : note that `\|~` is one
alternative matching the two-character sequence `|~`, so a lone `|` or a lone
`~` is not a split point. -/
def mermaidSplitChars : List Char :=
  ['@', '[', ']', '-', '>', '<', '{', '}', '(', ')', '=', '&', ',', '"', '%', '^', '*', '_']

/-- The split phase of `fileNameToMermaidId`: left-to-right regex scan that
splits on each character of `mermaidSplitChars` and on the two-character
sequence `|~`. -/
def mermaidSplit : List Char → List (List Char)
  | [] => [[]]
  | '|' :: '~' :: rest => [] :: mermaidSplit rest
  | c :: rest =>
    if mermaidSplitChars.contains c then [] :: mermaidSplit rest
    else consHead c (mermaidSplit rest)

/-- Fuelled worker for `replaceAllC`; the fuel only bounds the recursion and
`replaceAllC` always passes enough of it. -/
def replaceAllF (pat repl : List Char) : Nat → List Char → List Char
  | _, [] => []
  | 0, s => s
  | fuel+1, c :: rest =>
    if pat ≠ [] ∧ pat.isPrefixOf (c :: rest) then
      repl ++ replaceAllF pat repl fuel ((c :: rest).drop pat.length)
    else c :: replaceAllF pat repl fuel rest

/-- JS `String.prototype.replaceAll` with a plain-string pattern: replace the
non-overlapping occurrences of `pat`, scanning left to right; replacement text
is not rescanned. -/
def replaceAllC (pat repl s : List Char) : List Char :=
  replaceAllF pat repl s.length s

def patDirGraph : List Char := "/graph/".data

def repDirGraph : List Char := "/_graph_/".data

def patStyle : List Char := "style".data

def repStyle : List Char := "style_".data

def patGraph : List Char := "graph".data

def repGraph : List Char := "graph_".data

def patClass : List Char := "class".data

def repClass : List Char := "class_".data

def sepDouble : List Char := "//".data

/-- `fileNameToMermaidId` (src/mermaidify.ts lines 165-173): split on the
reserved characters, rejoin with `//`, then the four ordered global
substitutions. -/
def fileNameToMermaidId (fileName : String) : String :=
  String.mk (replaceAllC patClass repClass
    (replaceAllC patGraph repGraph
      (replaceAllC patStyle repStyle
        (replaceAllC patDirGraph repDirGraph
          (joinC sepDouble (mermaidSplit fileName.data))))))

/-- `fileNameToMermaidName` (src/mermaidify.ts lines 174-176): only the quote
character is split out of display labels. -/
def fileNameToMermaidName (fileName : String) : String :=
  String.mk (joinC sepDouble (splitC '"' fileName.data))

/-! ## Directory tree builder (src/mermaidify.ts, createDirAndNodesTree) -/

/-- One step of the `reduce` that turns a directory path into the list of its
progressive ancestor joins (src/mermaidify.ts lines 73-81).  JS tests
`if (prevValue)`, which is falsy both for a missing last element and for the
empty string. -/
def dirChainStep (prev : List String) (current : String) : List String :=
  match prev.getLast? with
  | some prevValue =>
    if prevValue ≠ "" then prev ++ [pathJoin [prevValue, current]] else prev ++ [current]
  | none => prev ++ [current]

/-- The ancestor chain of one directory path: `a/b/c ↦ [a, a/b, a/b/c]`. -/
def dirChain (dirPath : String) : List String :=
  (strSplit '/' dirPath).foldl dirChainStep []

/-- One step of the deduplicating `reduce` closing `allDir`
(src/mermaidify.ts lines 84-90); `if (!current)` also drops empty strings. -/
def allDirDedupStep (pre : List String) (current : String) : List String :=
  if current = "" then pre
  else if pre.contains current then pre
  else pre ++ [current]

/-- `allDir` of `createDirAndNodesTree`: every directory referenced by a node,
together with all implied ancestors, deduplicated in first-seen order. -/
def allDir (g : Graph) : List String :=
  (((g.nodes.map (fun n => getDirectoryPath n.path)).map
      (fun d => match d with
        | none => []
        | some dirPath => if dirPath = "" then [] else dirChain dirPath)).flatten).foldl
    allDirDedupStep []

/-- The per-directory record of `createDirAndNodesTree`
(src/mermaidify.ts lines 92-104). -/
structure DirAndNodes where
  currentDir : String
  dirHierarchy : List String
  nodes : List Node
  deriving DecidableEq, Repr

/-- `dirAndNodes`: each directory with its split hierarchy and the nodes whose
computed directory is exactly this directory. -/
def dirAndNodes (g : Graph) : List DirAndNodes :=
  (allDir g).map (fun currentDir =>
    ⟨currentDir, strSplit '/' currentDir,
      g.nodes.filter (fun node => getDirectoryPath node.path == some currentDir)⟩)

/-- `isChild` (src/mermaidify.ts lines 106-111): the candidate hierarchy is one
segment longer and extends the parent hierarchy.  JS computes
`candidate.length - 1` over numbers, hence the `Int` cast. -/
def isChild (parentDirHierarchy candidate : List String) : Bool :=
  if (parentDirHierarchy.length : Int) ≠ (candidate.length : Int) - 1 then false
  else parentDirHierarchy.isPrefixOf candidate

/-- The tree produced per directory (src/mermaidify.ts lines 4-9). -/
structure DirAndNodesTree where
  currentDir : String
  nodes : List Node
  children : List DirAndNodesTree
  deriving Repr

/-- Largest hierarchy length among the directory records; bounds the recursion
depth of `createDirAndNodesRecursive`. -/
def maxHierLen (all : List DirAndNodes) : Nat :=
  all.foldr (fun d m => max d.dirHierarchy.length m) 0

/-- Fuelled body of `createDirAndNodesRecursive` (src/mermaidify.ts lines
113-138): elide a record with no direct nodes and at most one child, else keep
it as a tree node.  The fuel only bounds the recursion depth; the wrapper
passes enough of it, and `createDirAndNodesRecF_fuel` below shows any
sufficient fuel gives the same value. -/
def createDirAndNodesRecF (all : List DirAndNodes) : Nat → DirAndNodes → List DirAndNodesTree
  | 0, _ => []
  | fuel+1, e =>
    let children := all.filter (fun item => isChild e.dirHierarchy item.dirHierarchy)
    if e.nodes.length = 0 ∧ children.length ≤ 1 then
      (children.map (createDirAndNodesRecF all fuel)).flatten
    else
      [⟨e.currentDir, e.nodes, (children.map (createDirAndNodesRecF all fuel)).flatten⟩]

/-- `createDirAndNodesRecursive`. -/
def createDirAndNodesRecursive (all : List DirAndNodes) (e : DirAndNodes) : List DirAndNodesTree :=
  createDirAndNodesRecF all (maxHierLen all + 1) e

/-- `createDirAndNodesTree` (src/mermaidify.ts lines 140-144): recurse from the
top-level (single-segment) directory records. -/
def createDirAndNodesTree (g : Graph) : List DirAndNodesTree :=
  (((dirAndNodes g).filter (fun d => d.dirHierarchy.length == 1)).map
    (createDirAndNodesRecursive (dirAndNodes g))).flatten

mutual
/-- All tree nodes of a tree, in pre-order (tree first, then descendants). -/
def flattenTree : DirAndNodesTree → List DirAndNodesTree
  | .mk cd ns cs => .mk cd ns cs :: flattenForest cs
/-- All tree nodes of a forest, in pre-order. -/
def flattenForest : List DirAndNodesTree → List DirAndNodesTree
  | [] => []
  | t :: ts => flattenTree t ++ flattenForest ts
end

/-! ## Serializer (src/mermaidify.ts, mermaidify).  A caller-supplied sink
receives a sequence of strings; we model the emitted sequence as a
`List String`, in write order. -/

def indent : String := "    "

def CLASSNAME_DIR : String := "dir"

def CLASSNAME_HIGHLIGHT : String := "highlight"

/-- Modelled from the spec and from the option accesses in
`src/mermaidify.ts`: the recognized configuration record (`OptionValues` of the
current `models.ts` is not among the provided sources). -/
structure Options where
  LR : Bool := false
  TB : Bool := false
  abstraction : Bool := false
  highlight : Bool := false
  mermaidLink : Bool := false
  rootDir : String := ""
  deriving DecidableEq, Repr

/-- `writeRelations` (src/mermaidify.ts lines 147-163): per relation, one
arrow line from sanitized endpoint identifiers, then a newline write. -/
def writeRelations (relations : List Relation) : List String :=
  (relations.map (fun relation =>
      (fileNameToMermaidId relation.from.path, fileNameToMermaidId relation.to.path))).flatMap
    (fun relation => ["    " ++ relation.1 ++ "-->" ++ relation.2, "\n"])

/-- `_indent` of `addGraph`: the base indent repeated `indentNumber + 1`
times. -/
def indentsOf : Nat → String
  | 0 => indent
  | n+1 => indentsOf n ++ indent

/-- JS `String.prototype.replace` with a string pattern on a nonempty pattern:
replace only the first occurrence (used for stripping the parent prefix from a
child label). -/
def replaceOneAux (pat repl : List Char) : List Char → List Char
  | [] => []
  | c :: rest =>
    if pat.isPrefixOf (c :: rest) then repl ++ (c :: rest).drop pat.length
    else c :: replaceOneAux pat repl rest

/-- JS `String.prototype.replace` with a string pattern (an empty pattern
matches at position 0). -/
def replaceOneC (pat repl s : List Char) : List Char :=
  if pat = [] then repl ++ s else replaceOneAux pat repl s

mutual
/-- `addGraph` (src/mermaidify.ts lines 185-224): subgraph opener, one line
per owned node, children at the next depth, closing line.  The display-name
field is spelled `node.name` in the current source and `fileName` in
`src/models.ts`; the model uses one field for it. -/
def addGraph : DirAndNodesTree → Nat → Option String → List String
  | .mk currentDir nodes children, indentNumber, parent =>
    (indentsOf indentNumber ++ "subgraph " ++ fileNameToMermaidId currentDir ++ "[\"" ++
        fileNameToMermaidName (match parent with
          | some p => String.mk (replaceOneC p.data [] currentDir.data)
          | none => currentDir) ++ "\"]") ::
    "\n" ::
    ((nodes.map (fun node =>
        [indentsOf indentNumber ++ indent ++ fileNameToMermaidId node.path ++ "[\"" ++
            fileNameToMermaidName node.fileName ++ "\"]" ++
            (if node.highlight then ":::" ++ CLASSNAME_HIGHLIGHT
             else if node.isDirectory then ":::" ++ CLASSNAME_DIR
             else ""),
          "\n"])).flatten
      ++ addGraphForest children (indentNumber + 1) currentDir
      ++ [indentsOf indentNumber ++ "end", "\n"])
/-- The `forEach` over children inside `addGraph`. -/
def addGraphForest : List DirAndNodesTree → Nat → String → List String
  | [], _, _ => []
  | t :: ts, n, parent => addGraph t n (some parent) ++ addGraphForest ts n parent
end

/-- `writeFileNodesWithSubgraph` (src/mermaidify.ts lines 178-183). -/
def writeFileNodesWithSubgraph (trees : List DirAndNodesTree) : List String :=
  trees.flatMap (fun tree => addGraph tree 0 none)

mutual
/-- `addLink` (src/mermaidify.ts lines 233-250): one vscode link line per
node, then the children. -/
def addLink : DirAndNodesTree → String → List String
  | .mk _ nodes children, rootDir =>
    ((nodes.map (fun node =>
        [indent ++ "click " ++ fileNameToMermaidId node.path ++ " href \"vscode://file/" ++
            pathJoin [rootDir, node.path] ++ "\" _blank",
          "\n"])).flatten)
    ++ addLinkForest children rootDir
/-- The `forEach` over children inside `addLink`. -/
def addLinkForest : List DirAndNodesTree → String → List String
  | [], _ => []
  | t :: ts, r => addLink t r ++ addLinkForest ts r
end

/-- `writeFileLink` (src/mermaidify.ts lines 225-231). -/
def writeFileLink (trees : List DirAndNodesTree) (rootDir : String) : List String :=
  trees.flatMap (fun t => addLink t rootDir)

/-- `mermaidify` (src/mermaidify.ts lines 18-47): direction header, optional
class definitions, the subgraph tree, the relations, optional link lines. -/
def mermaidify (g : Graph) (options : Options) : List String :=
  (if options.LR then ["flowchart LR\n"]
   else if options.TB then ["flowchart TB\n"]
   else ["flowchart\n"])
  ++ (if options.abstraction then
        [indent ++ "classDef " ++ CLASSNAME_DIR ++ " fill:#0000,stroke:#999\n"] else [])
  ++ (if options.highlight then
        [indent ++ "classDef " ++ CLASSNAME_HIGHLIGHT ++ " fill:yellow,color:black\n"] else [])
  ++ writeFileNodesWithSubgraph (createDirAndNodesTree g)
  ++ writeRelations g.relations
  ++ (if options.mermaidLink then writeFileLink (createDirAndNodesTree g) options.rootDir else [])

/-! ## Graph filter (filterGraph; the provided sources hold it as an unnamed
file whose lines 9-67 are cited by the claims) -/

/-- One step of first-seen deduplication with respect to a boolean
equivalence test. -/
def uniqueStep {α : Type} (eqv : α → α → Bool) (acc : List α) (x : α) : List α :=
  if acc.any (fun a => eqv a x) then acc else acc ++ [x]

/-- First-seen deduplication with respect to a boolean equivalence test:
first occurrences are kept, in order. -/
def uniqueBy {α : Type} (eqv : α → α → Bool) (l : List α) : List α :=
  l.foldl (uniqueStep eqv) []

/-- Modelled from the spec: `getUniqueNodes` of the current `models.ts`
deduplicates a node list by path, first occurrence kept, order preserved. -/
def getUniqueNodes (nodes : List Node) : List Node :=
  uniqueBy isSameNode nodes

/-- Modelled from the spec: `getUniqueRelations` deduplicates a relation list
by endpoint-path pair, first occurrence kept, order preserved. -/
def getUniqueRelations (relations : List Relation) : List Relation :=
  uniqueBy isSameRelation relations

/-- Modelled from the spec: `extractUniqueNodes` of `./utils` returns the
explicitly kept nodes first, then every endpoint of a retained relation,
deduplicated by path in first-seen order. -/
def extractUniqueNodes (g : Graph) : List Node :=
  getUniqueNodes (g.nodes ++ g.relations.flatMap (fun r => [r.from, r.to]))

/-- `node.path.toLowerCase().includes(word.toLowerCase())`. -/
def wordMatchesPath (path word : String) : Bool :=
  strIncludes (lowerStr path) (lowerStr word)

/-- A relation survives the include pass when either endpoint path matches
one of the words. -/
def relMatches (words : List String) (r : Relation) : Bool :=
  words.any (fun word => wordMatchesPath r.from.path word || wordMatchesPath r.to.path word)

/-- `tmpNodes` of `filterGraph` after the include and exclude passes.  JS
guards each pass with `list && list.length !== 0`. -/
def keptNodes (inc exc : Option (List String)) (g : Graph) : List Node :=
  let tmp1 := match inc with
    | some words =>
      if words.length ≠ 0 then
        g.nodes.filter (fun node => words.any (fun word => wordMatchesPath node.path word))
      else g.nodes
    | none => g.nodes
  match exc with
  | some words =>
    if words.length ≠ 0 then
      tmp1.filter (fun node => !words.any (fun word => wordMatchesPath node.path word))
    else tmp1
  | none => tmp1

/-- `tmpRelations` of `filterGraph` after the include and exclude passes. -/
def keptRelations (inc exc : Option (List String)) (g : Graph) : List Relation :=
  let tmp1 := match inc with
    | some words =>
      if words.length ≠ 0 then g.relations.filter (fun r => relMatches words r)
      else g.relations
    | none => g.relations
  match exc with
  | some words =>
    if words.length ≠ 0 then tmp1.filter (fun r => !relMatches words r)
    else tmp1
  | none => tmp1

/-- `relationNodes` of the bridge pass: the deduplicated endpoints of the kept
relations, restricted to nodes for which some kept node is NOT the same node —
the source tests `tmpNodes.some(tmpNode => !isSameNode(node, tmpNode))`. -/
def relationNodes (inc exc : Option (List String)) (g : Graph) : List Node :=
  (getUniqueNodes ((keptRelations inc exc g).flatMap (fun r => [r.from, r.to]))).filter
    (fun node => (keptNodes inc exc g).any (fun tmpNode => !isSameNode node tmpNode))

/-- The original relations re-admitted by the bridge pass: both endpoints
occur in `relationNodes`. -/
def readmitted (inc exc : Option (List String)) (g : Graph) : List Relation :=
  g.relations.filter (fun r =>
    (relationNodes inc exc g).any (fun node => isSameNode node r.from) &&
    (relationNodes inc exc g).any (fun node => isSameNode node r.to))

/-- `filterGraph`: include/exclude passes, bridge re-admission, endpoint-pair
dedup, and node re-derivation. -/
def filterGraph (inc exc : Option (List String)) (g : Graph) : Graph :=
  let tmpRelations := getUniqueRelations (keptRelations inc exc g ++ readmitted inc exc g)
  ⟨extractUniqueNodes ⟨keptNodes inc exc g, tmpRelations⟩, tmpRelations⟩

/-- Modelled from the spec's words, for comparison with the source in claim
C6: a split that really uses every single character of the reserved set —
including a lone `|` and a lone `~` — as a split point. -/
def claimedReservedChars : List Char := mermaidSplitChars ++ ['|', '~']

/-- Modelled from the spec's words, for comparison with the source in claim
C6: the split phase as the spec describes it. -/
def claimedSplit : List Char → List (List Char)
  | [] => [[]]
  | c :: rest =>
    if claimedReservedChars.contains c then [] :: claimedSplit rest
    else consHead c (claimedSplit rest)

/-- Modelled from the spec's words, for comparison with the source in claim
C6: the sanitizer with the spec's split phase. -/
def claimedSanitize (fileName : String) : String :=
  String.mk (replaceAllC patClass repClass
    (replaceAllC patGraph repGraph
      (replaceAllC patStyle repStyle
        (replaceAllC patDirGraph repDirGraph
          (joinC sepDouble (claimedSplit fileName.data))))))

/-- The 17 characters the sanitizer is guaranteed to eliminate: the single
split characters except `_`, which the reserved-word substitutions can
re-introduce (`|` and `~` are only split as the pair `|~`). -/
def alwaysRemovedChars : List Char :=
  ['@', '[', ']', '-', '>', '<', '{', '}', '(', ')', '=', '&', ',', '"', '%', '^', '*']

example : getDirectoryPath "a/b/c" = some "a/b" := by decide
example : getDirectoryPath "x" = none := by decide
example : getDirectoryPath "node_modules/react/index" = some "node_modules" := by decide
example : getDirectoryPath "node_modules" = some "node_modules" := by decide
example : getDirectoryPath "a/./b" = some "a" := by decide
example : getDirectoryPath "a/../b/c" = some "b" := by decide
example : getDirectoryPath "" = none := by decide
example : fileNameToMermaidId "a-b@c[d]" = "a//b//c//d//" := by decide
example : fileNameToMermaidId "a~b" = "a~b" := by decide
example : fileNameToMermaidId "a|~b" = "a//b" := by decide
example : fileNameToMermaidId "a_style" = "a//style_" := by decide
example : fileNameToMermaidId "x/graph/y" = "x/_graph__/y" := by decide
example :
    createDirAndNodesTree ⟨[⟨"a/b/c/x", "x", false, false⟩, ⟨"a/b/c/y", "y", false, false⟩], []⟩ =
      [⟨"a/b/c", [⟨"a/b/c/x", "x", false, false⟩, ⟨"a/b/c/y", "y", false, false⟩], []⟩] := rfl
example :
    createDirAndNodesTree ⟨[⟨"a/x", "x", false, false⟩, ⟨"a/b/y", "y", false, false⟩], []⟩ =
      [⟨"a", [⟨"a/x", "x", false, false⟩], [⟨"a/b", [⟨"a/b/y", "y", false, false⟩], []⟩]⟩] := rfl
example : createDirAndNodesTree ⟨[⟨"x", "x", false, false⟩], []⟩ = [] := rfl
example :
    (filterGraph (some ["b"]) none
        ⟨[⟨"a", "a", false, false⟩],
          [⟨⟨"a", "a", false, false⟩, ⟨"b", "b", false, false⟩, ""⟩,
            ⟨⟨"a", "a", false, false⟩, ⟨"a", "a", false, false⟩, ""⟩]⟩).relations =
      [⟨⟨"a", "a", false, false⟩, ⟨"b", "b", false, false⟩, ""⟩] := by decide
example :
    filterGraph none none
        ⟨[⟨"a", "a", false, false⟩], [⟨⟨"a", "a", false, false⟩, ⟨"a", "a", false, false⟩, ""⟩,
          ⟨⟨"a", "a", false, false⟩, ⟨"a", "a", false, false⟩, ""⟩]⟩ =
      ⟨[⟨"a", "a", false, false⟩], [⟨⟨"a", "a", false, false⟩, ⟨"a", "a", false, false⟩, ""⟩]⟩ := by
  decide
example :
    (filterGraph (some ["B"]) none
        ⟨[⟨"xAbY", "n", false, false⟩], []⟩).nodes = [⟨"xAbY", "n", false, false⟩] := by decide
example :
    mermaidify ⟨[⟨"", "e", false, false⟩], []⟩ {} = ["flowchart\n"] := by decide
example :
    mermaidify ⟨[⟨"a/x", "x", false, false⟩], []⟩ { LR := true } =
      ["flowchart LR\n",
        "    subgraph a[\"a\"]", "\n",
        "        a/x[\"x\"]", "\n",
        "    end", "\n"] := by decide

/-! ## Helper lemmas: characters of the sanitizer output -/

theorem data_mk (l : List Char) : (String.mk l).data = l := rfl

theorem mem_consHead {c : Char} {L : List (List Char)} {p : List Char}
    (hp : p ∈ consHead c L) : ∀ x ∈ p, x = c ∨ ∃ q ∈ L, x ∈ q := by
  cases L with
  | nil =>
    simp only [consHead, List.mem_singleton] at hp
    subst hp
    intro x hx
    simp only [List.mem_singleton] at hx
    exact Or.inl hx
  | cons h t =>
    simp only [consHead, List.mem_cons] at hp
    rcases hp with rfl | hp
    · intro x hx
      rcases List.mem_cons.mp hx with rfl | hx
      · exact Or.inl rfl
      · exact Or.inr ⟨h, List.mem_cons_self h t, hx⟩
    · intro x hx
      exact Or.inr ⟨p, List.mem_cons_of_mem h hp, hx⟩

theorem mermaidSplit_chars :
    ∀ (cs : List Char), ∀ p ∈ mermaidSplit cs, ∀ x ∈ p, x ∉ mermaidSplitChars := by
  intro cs
  induction cs using mermaidSplit.induct with
  | case1 =>
    intro p hp x hx
    simp only [mermaidSplit, List.mem_singleton] at hp
    subst hp
    simp at hx
  | case2 rest ih =>
    intro p hp x hx
    simp only [mermaidSplit, List.mem_cons] at hp
    rcases hp with rfl | hp
    · simp at hx
    · exact ih p hp x hx
  | case3 c rest hne hc ih =>
    intro p hp x hx
    simp only [mermaidSplit, hc, if_true] at hp
    rcases List.mem_cons.mp hp with rfl | hp
    · simp at hx
    · exact ih p hp x hx
  | case4 c rest hne hc ih =>
    intro p hp x hx
    simp only [mermaidSplit, hc, if_false] at hp
    rcases mem_consHead hp x hx with rfl | ⟨q, hq, hxq⟩
    · intro hmem
      exact hc (List.elem_eq_true_of_mem hmem)
    · exact ih q hq x hxq

theorem mem_joinC {sep : List Char} :
    ∀ (L : List (List Char)) {x : Char}, x ∈ joinC sep L → x ∈ sep ∨ ∃ p ∈ L, x ∈ p := by
  intro L
  induction L with
  | nil => intro x hx; simp [joinC] at hx
  | cons p ps ih =>
    intro x hx
    cases ps with
    | nil =>
      simp only [joinC] at hx
      exact Or.inr ⟨p, List.mem_singleton_self p, hx⟩
    | cons q qs =>
      simp only [joinC] at hx
      rcases List.mem_append.mp hx with h | h
      · rcases List.mem_append.mp h with h2 | h2
        · exact Or.inr ⟨p, List.mem_cons_self p (q :: qs), h2⟩
        · exact Or.inl h2
      · rcases ih h with h3 | ⟨r, hr, hxr⟩
        · exact Or.inl h3
        · exact Or.inr ⟨r, List.mem_cons_of_mem p hr, hxr⟩

theorem mem_replaceAllF {pat repl : List Char} :
    ∀ (fuel : Nat) (s : List Char) {x : Char},
      x ∈ replaceAllF pat repl fuel s → x ∈ s ∨ x ∈ repl := by
  intro fuel
  induction fuel with
  | zero =>
    intro s x hx
    cases s with
    | nil => simp [replaceAllF] at hx
    | cons c rest => exact Or.inl (by simpa [replaceAllF] using hx)
  | succ fuel ih =>
    intro s x hx
    cases s with
    | nil => simp [replaceAllF] at hx
    | cons c rest =>
      simp only [replaceAllF] at hx
      split at hx
      · rcases List.mem_append.mp hx with h | h
        · exact Or.inr h
        · rcases ih _ h with h2 | h2
          · exact Or.inl (List.mem_of_mem_drop h2)
          · exact Or.inr h2
      · rcases List.mem_cons.mp hx with rfl | h
        · exact Or.inl (List.mem_cons_self x rest)
        · rcases ih _ h with h2 | h2
          · exact Or.inl (List.mem_cons_of_mem c h2)
          · exact Or.inr h2

theorem mem_replaceAllC {pat repl s : List Char} {x : Char}
    (hx : x ∈ replaceAllC pat repl s) : x ∈ s ∨ x ∈ repl :=
  mem_replaceAllF _ _ hx

/-! ## Claims C6 and C10: identifier sanitization -/

/-- C6 counterexample: on the path `a~b` the source sanitizer splits nothing —
the regex alternative `\|~` only matches the two-character sequence `|~`, so a
lone `~` (or a lone `|`) is not a split point — while the split described by
the claim would give `a//b`.  The output keeps the reserved character `~`. -/
theorem mermaid_id_tilde_cex :
    fileNameToMermaidId "a~b" = "a~b" ∧ claimedSanitize "a~b" = "a//b" ∧
      fileNameToMermaidId "a~b" ≠ claimedSanitize "a~b" ∧
      '~' ∈ (fileNameToMermaidId "a~b").data := by
  refine ⟨by decide, by decide, by decide, by decide⟩

/-- C6 (amended): the sanitizer splits on each of the seventeen single
reserved characters other than `|`, `~` and `_`, on `_` itself, and on the
two-character sequence `|~`; it rejoins fragments with `//` and applies the
four ordered substitutions.  Consequently no character of
`alwaysRemovedChars` ever survives into the output (while `_` can be
re-introduced by the substitutions, and `|`/`~` survive when not paired);
the claim's own fixture `a-b@c[d]` sanitizes to `a//b//c//d//`, which
contains none of the reserved characters. -/
theorem mermaid_id_reserved_chars :
    (∀ (s : String), ∀ x ∈ (fileNameToMermaidId s).data, x ∉ alwaysRemovedChars) ∧
      fileNameToMermaidId "a-b@c[d]" = "a//b//c//d//" ∧
      (∀ x ∈ (fileNameToMermaidId "a-b@c[d]").data, x ∉ claimedReservedChars ∧ x ≠ '_') := by
  refine ⟨?_, by decide, by decide⟩
  intro s x hx hbad
  unfold fileNameToMermaidId at hx
  rw [data_mk] at hx
  rcases mem_replaceAllC hx with hx | hr
  · rcases mem_replaceAllC hx with hx | hr
    · rcases mem_replaceAllC hx with hx | hr
      · rcases mem_replaceAllC hx with hx | hr
        · rcases mem_joinC _ hx with hsep | ⟨p, hp, hxp⟩
          · have : ∀ y ∈ sepDouble, y ∉ alwaysRemovedChars := by decide
            exact this x hsep hbad
          · have hsub : ∀ y ∈ alwaysRemovedChars, y ∈ mermaidSplitChars := by decide
            exact mermaidSplit_chars s.data p hp x hxp (hsub x hbad)
        · have : ∀ y ∈ repDirGraph, y ∉ alwaysRemovedChars := by decide
          exact this x hr hbad
      · have : ∀ y ∈ repStyle, y ∉ alwaysRemovedChars := by decide
        exact this x hr hbad
    · have : ∀ y ∈ repGraph, y ∉ alwaysRemovedChars := by decide
      exact this x hr hbad
  · have : ∀ y ∈ repClass, y ∉ alwaysRemovedChars := by decide
    exact this x hr hbad

/-- Witness for C6: the character `a` occurs in the sanitized `a-b@c[d]` and
the amended theorem applies to it. -/
theorem mermaid_id_reserved_chars_witness :
    'a' ∈ (fileNameToMermaidId "a-b@c[d]").data ∧ 'a' ∉ alwaysRemovedChars :=
  ⟨by decide, mermaid_id_reserved_chars.1 "a-b@c[d]" 'a' (by decide)⟩

/-- C10: there are inputs on which the sanitizer returns an identifier that
still contains the reserved character `_`: splitting `a_style` removes the
underscore, but the fragment `style` survives the split and the
`style → style_` substitution re-inserts one. -/
theorem mermaid_id_underscore_survives :
    ∃ p : String, fileNameToMermaidId p = "a//style_" ∧ '_' ∈ (fileNameToMermaidId p).data :=
  ⟨"a_style", by decide, by decide⟩

/-! ## Helper lemmas: split/join roundtrips and POSIX normalization -/

theorem mk_data (s : String) : String.mk s.data = s := by
  cases s
  rfl

theorem head?_append_left {α : Type} {l₁ l₂ : List α} (h : l₁ ≠ []) :
    (l₁ ++ l₂).head? = l₁.head? := by
  cases l₁ with
  | nil => exact absurd rfl h
  | cons a t => rfl

theorem getLast?_cons_ne_nil {α : Type} {a : α} {m : List α} (h : m ≠ []) :
    (a :: m).getLast? = m.getLast? := by
  cases m with
  | nil => exact absurd rfl h
  | cons b t => exact List.getLast?_cons_cons

theorem getLast?_append_right {α : Type} {l₁ l₂ : List α} (h : l₂ ≠ []) :
    (l₁ ++ l₂).getLast? = l₂.getLast? := by
  induction l₁ with
  | nil => rfl
  | cons a t ih =>
    have ht : t ++ l₂ ≠ [] := by
      intro hc
      rcases List.append_eq_nil.mp hc with ⟨-, h2⟩
      exact h h2
    rw [List.cons_append, getLast?_cons_ne_nil ht, ih]

theorem splitC_ne_nil (sep : Char) (l : List Char) : splitC sep l ≠ [] := by
  cases l with
  | nil => simp [splitC]
  | cons c rest =>
    by_cases h : c = sep
    · simp [splitC, h]
    · simp only [splitC, if_neg h]
      cases hs : splitC sep rest with
      | nil => simp [consHead]
      | cons a t => simp [consHead]

theorem splitC_sep_free (sep : Char) :
    ∀ (l : List Char), ∀ p ∈ splitC sep l, sep ∉ p := by
  intro l
  induction l with
  | nil =>
    intro p hp
    simp only [splitC, List.mem_singleton] at hp
    subst hp
    simp
  | cons c rest ih =>
    intro p hp
    by_cases h : c = sep
    · simp only [splitC, if_pos h, List.mem_cons] at hp
      rcases hp with rfl | hp
      · simp
      · exact ih p hp
    · simp only [splitC, if_neg h] at hp
      cases hs : splitC sep rest with
      | nil => exact absurd hs (splitC_ne_nil sep rest)
      | cons a t =>
        rw [hs] at hp
        simp only [consHead, List.mem_cons] at hp
        rcases hp with rfl | hp
        · intro hmem
          rcases List.mem_cons.mp hmem with rfl | hmem
          · exact h rfl
          · exact ih a (hs ▸ List.mem_cons_self a t) hmem
        · exact ih p (hs ▸ List.mem_cons_of_mem a hp)

theorem joinC_consHead {sep c : Char} {L : List (List Char)} (h : L ≠ []) :
    joinC [sep] (consHead c L) = c :: joinC [sep] L := by
  cases L with
  | nil => exact absurd rfl h
  | cons p t =>
    cases t with
    | nil => rfl
    | cons q u => rfl

theorem joinC_splitC (sep : Char) : ∀ (l : List Char), joinC [sep] (splitC sep l) = l := by
  intro l
  induction l with
  | nil => rfl
  | cons c rest ih =>
    by_cases h : c = sep
    · subst h
      simp only [splitC, if_pos rfl]
      cases hs : splitC c rest with
      | nil => exact absurd hs (splitC_ne_nil c rest)
      | cons a t =>
        show [] ++ [c] ++ joinC [c] (a :: t) = c :: rest
        rw [← hs, List.nil_append, List.singleton_append, ih]
    · simp only [splitC, if_neg h]
      rw [joinC_consHead (splitC_ne_nil sep rest), ih]

theorem splitC_single {sep : Char} : ∀ {p : List Char}, sep ∉ p → splitC sep p = [p] := by
  intro p
  induction p with
  | nil => intro _; rfl
  | cons c rest ih =>
    intro h
    have hc : c ≠ sep := by
      intro hc
      exact h (hc ▸ List.mem_cons_self c rest)
    have hrest : sep ∉ rest := fun hm => h (List.mem_cons_of_mem c hm)
    simp only [splitC, if_neg hc, ih hrest, consHead]

theorem splitC_append_sep {sep : Char} :
    ∀ (p m : List Char), sep ∉ p → splitC sep (p ++ sep :: m) = p :: splitC sep m := by
  intro p
  induction p with
  | nil =>
    intro m _
    simp [splitC]
  | cons c rest ih =>
    intro m h
    have hc : c ≠ sep := by
      intro hc
      exact h (hc ▸ List.mem_cons_self c rest)
    have hrest : sep ∉ rest := fun hm => h (List.mem_cons_of_mem c hm)
    show splitC sep (c :: (rest ++ sep :: m)) = (c :: rest) :: splitC sep m
    simp only [splitC, if_neg hc]
    rw [ih m hrest]
    rfl

theorem splitC_joinC {sep : Char} :
    ∀ {L : List (List Char)}, L ≠ [] → (∀ p ∈ L, sep ∉ p) →
      splitC sep (joinC [sep] L) = L := by
  intro L
  induction L with
  | nil => intro h _; exact absurd rfl h
  | cons p t ih =>
    intro _ hfree
    cases t with
    | nil => exact splitC_single (hfree p (List.mem_singleton_self p))
    | cons q u =>
      have hjoin : joinC [sep] (p :: q :: u) = p ++ sep :: joinC [sep] (q :: u) := by
        show p ++ [sep] ++ joinC [sep] (q :: u) = p ++ sep :: joinC [sep] (q :: u)
        rw [List.append_assoc, List.singleton_append]
      rw [hjoin, splitC_append_sep p (joinC [sep] (q :: u)) (hfree p (List.mem_cons_self p (q :: u))),
        ih (by simp) (fun r hr => hfree r (List.mem_cons_of_mem p hr))]

theorem strJoin_strSplit (sep : Char) (s : String) : strJoin sep (strSplit sep s) = s := by
  unfold strJoin strSplit
  rw [List.map_map]
  have : (splitC sep s.data).map (String.data ∘ String.mk) = splitC sep s.data := by
    apply List.map_id''
    intro l
    rfl
  rw [this, joinC_splitC, mk_data]

theorem strSplit_strJoin {sep : Char} {parts : List String} (hne : parts ≠ [])
    (hfree : ∀ p ∈ parts, sep ∉ p.data) :
    strSplit sep (strJoin sep parts) = parts := by
  unfold strJoin strSplit
  rw [data_mk, splitC_joinC (by simpa using hne)
    (by intro p hp; rcases List.mem_map.mp hp with ⟨q, hq, rfl⟩; exact hfree q hq)]
  rw [List.map_map]
  apply List.map_id''
  intro s
  exact mk_data s

/-- A plain path segment: not empty and none of the special names the
normalizer rewrites. -/
def PlainSeg (s : String) : Prop := s ≠ "" ∧ s ≠ "." ∧ s ≠ ".."

instance (s : String) : Decidable (PlainSeg s) := by
  unfold PlainSeg
  infer_instance

theorem normStep_plain {b : Bool} {stack : List String} {s : String} (h : PlainSeg s) :
    normStep b stack s = s :: stack := by
  obtain ⟨h1, h2, h3⟩ := h
  unfold normStep
  rw [if_neg (by simp [h1, h2]), if_neg h3]

theorem foldl_normStep_plain {b : Bool} {parts stack : List String}
    (h : ∀ p ∈ parts, PlainSeg p) :
    parts.foldl (normStep b) stack = parts.reverse ++ stack := by
  induction parts generalizing stack with
  | nil => rfl
  | cons p t ih =>
    rw [List.foldl_cons, normStep_plain (h p (List.mem_cons_self p t)),
      ih (fun q hq => h q (List.mem_cons_of_mem p hq)),
      List.reverse_cons, List.append_assoc, List.singleton_append]

theorem joinC_plain {sep : Char} :
    ∀ (L : List (List Char)) (p0 : List Char), (∀ p ∈ p0 :: L, p ≠ []) →
      joinC [sep] (p0 :: L) ≠ [] ∧
      (joinC [sep] (p0 :: L)).head? = p0.head? ∧
      (joinC [sep] (p0 :: L)).getLast? = ((p0 :: L).getLast?.getD []).getLast? := by
  intro L
  induction L with
  | nil =>
    intro p0 h
    exact ⟨h p0 (List.mem_singleton_self p0), rfl, rfl⟩
  | cons q t ih =>
    intro p0 h
    have hp0 : p0 ≠ [] := h p0 (List.mem_cons_self p0 (q :: t))
    have hq := ih q (fun p hp => h p (List.mem_cons_of_mem p0 hp))
    have hshape : joinC [sep] (p0 :: q :: t) = (p0 ++ [sep]) ++ joinC [sep] (q :: t) := rfl
    refine ⟨?_, ?_, ?_⟩
    · rw [hshape]
      intro hc
      rcases List.append_eq_nil.mp hc with ⟨h2, -⟩
      rcases List.append_eq_nil.mp h2 with ⟨h3, -⟩
      exact hp0 h3
    · rw [hshape, head?_append_left (by simp [hp0]), head?_append_left hp0]
    · rw [hshape, getLast?_append_right hq.1, hq.2.2, List.getLast?_cons_cons]

theorem head?_some_mem {α : Type} {l : List α} {a : α} (h : l.head? = some a) : a ∈ l := by
  cases l with
  | nil => simp at h
  | cons b t =>
    rw [List.head?_cons, Option.some_inj] at h
    exact h ▸ List.mem_cons_self b t

theorem mem_of_getLast?_eq {α : Type} {l : List α} {a : α} (h : l.getLast? = some a) :
    a ∈ l := by
  induction l with
  | nil => simp at h
  | cons b t ih =>
    cases t with
    | nil =>
      rw [List.getLast?_singleton, Option.some_inj] at h
      exact h ▸ List.mem_singleton_self b
    | cons c u =>
      rw [List.getLast?_cons_cons] at h
      exact List.mem_cons_of_mem b (ih h)

theorem getLast?_getD_mem {α : Type} {l : List α} (h : l ≠ []) (d : α) :
    l.getLast?.getD d ∈ l := by
  cases hg : l.getLast? with
  | none => exact absurd (List.getLast?_eq_none_iff.mp hg) h
  | some a => exact mem_of_getLast?_eq hg

theorem pathJoin_plain {parts : List String} (hne : parts ≠ [])
    (hplain : ∀ p ∈ parts, PlainSeg p) (hfree : ∀ p ∈ parts, '/' ∉ p.data) :
    pathJoin parts = strJoin '/' parts := by
  obtain ⟨p0, rest, rfl⟩ : ∃ p0 rest, parts = p0 :: rest := by
    cases parts with
    | nil => exact absurd rfl hne
    | cons a t => exact ⟨a, t, rfl⟩
  have hdata_ne : ∀ p ∈ p0.data :: rest.map String.data, p ≠ [] := by
    intro p hp
    rcases List.mem_cons.mp hp with rfl | hp
    · intro hc
      exact (hplain p0 (List.mem_cons_self p0 rest)).1 (by rw [← mk_data p0, hc])
    · rcases List.mem_map.mp hp with ⟨q, hq, rfl⟩
      intro hc
      exact (hplain q (List.mem_cons_of_mem p0 hq)).1 (by rw [← mk_data q, hc])
  have hdata_free : ∀ p ∈ p0.data :: rest.map String.data, '/' ∉ p := by
    intro p hp
    rcases List.mem_cons.mp hp with rfl | hp
    · exact hfree p0 (List.mem_cons_self p0 rest)
    · rcases List.mem_map.mp hp with ⟨q, hq, rfl⟩
      exact hfree q (List.mem_cons_of_mem p0 hq)
  have hjspec := @joinC_plain '/' (rest.map String.data) p0.data hdata_ne
  have hdata : (strJoin '/' (p0 :: rest)).data = joinC ['/'] (p0.data :: rest.map String.data) := rfl
  have hjoin_ne : strJoin '/' (p0 :: rest) ≠ "" := by
    intro hc
    apply hjspec.1
    rw [← hdata, hc]
  have hAbsF : ((strJoin '/' (p0 :: rest)).data.head? == some '/') = false := by
    rw [hdata, hjspec.2.1]
    apply beq_eq_false_iff_ne.mpr
    intro hc
    exact hdata_free p0.data (List.mem_cons_self _ _) (head?_some_mem hc)
  have hTrailF : ((strJoin '/' (p0 :: rest)).data.getLast? == some '/') = false := by
    rw [hdata, hjspec.2.2]
    apply beq_eq_false_iff_ne.mpr
    intro hc
    have hmem := @getLast?_getD_mem _ (p0.data :: rest.map String.data) (by simp) []
    exact hdata_free _ hmem (mem_of_getLast?_eq hc)
  have hfilter : (p0 :: rest).filter (fun s => s != "") = p0 :: rest := by
    apply List.filter_eq_self.mpr
    intro a ha
    exact bne_iff_ne.mpr (hplain a ha).1
  unfold pathJoin
  rw [hfilter, if_neg (by simp)]
  unfold posixNormalize
  rw [if_neg hjoin_ne]
  dsimp only
  simp only [hAbsF, hTrailF, Bool.not_false]
  rw [hdata, splitC_joinC (by simp) hdata_free]
  have hmk : (p0.data :: rest.map String.data).map String.mk = p0 :: rest := by
    simp only [List.map_cons, mk_data, List.map_map]
    congr 1
    apply List.map_id''
    intro s
    exact mk_data s
  rw [hmk, foldl_normStep_plain hplain, List.append_nil, List.reverse_reverse]
  rw [show (p0 :: rest).map String.data = p0.data :: rest.map String.data from rfl]
  rw [if_neg hjspec.1]
  simp only [Bool.false_eq_true, if_false, List.nil_append, List.append_nil]
  rfl

/-! ## Claim C5: getDirectoryPath -/

/-- C5 counterexample: the directory of `a/./b` is not the plain join `a/.` of
all segments but the last — `path.join` normalizes, dropping the `.`
segment — so the claimed "joined with the separator" rule fails. -/
theorem getDirectoryPath_normalize_cex :
    getDirectoryPath "a/./b" = some "a" ∧
      strJoin '/' ((strSplit '/' "a/./b").take ((strSplit '/' "a/./b").length - 1)) = "a/." ∧
      getDirectoryPath "a/./b" ≠
        some (strJoin '/' ((strSplit '/' "a/./b").take ((strSplit '/' "a/./b").length - 1))) := by
  refine ⟨by decide, by decide, by decide⟩

/-- C5 (amended): splitting on the separator, (i) a path with a
`node_modules` segment maps to the flat `node_modules` bucket regardless of
depth; (ii) a single-segment path has no directory; (iii) otherwise the
directory is all segments but the last joined with the separator — as written,
provided those segments are plain names: `path.join` drops empty and `.`
segments and resolves `..`, so for such segments the join degenerates to a
plain separator join. -/
theorem getDirectoryPath_cases :
    (∀ p : String, "node_modules" ∈ strSplit '/' p → getDirectoryPath p = some "node_modules") ∧
    (∀ p : String, "node_modules" ∉ strSplit '/' p → (strSplit '/' p).length = 1 →
      getDirectoryPath p = none) ∧
    (∀ p : String, "node_modules" ∉ strSplit '/' p → 2 ≤ (strSplit '/' p).length →
      (∀ seg ∈ (strSplit '/' p).take ((strSplit '/' p).length - 1), PlainSeg seg) →
      getDirectoryPath p =
        some (strJoin '/' ((strSplit '/' p).take ((strSplit '/' p).length - 1)))) := by
  refine ⟨?_, ?_, ?_⟩
  · intro p h
    unfold getDirectoryPath
    rw [if_pos (List.elem_eq_true_of_mem h)]
  · intro p h h1
    unfold getDirectoryPath
    rw [if_neg (fun hc => h (List.mem_of_elem_eq_true hc)), if_pos h1]
  · intro p h h2 hplain
    unfold getDirectoryPath
    rw [if_neg (fun hc => h (List.mem_of_elem_eq_true hc)), if_neg (by omega)]
    congr 1
    apply pathJoin_plain
    · have : ((strSplit '/' p).take ((strSplit '/' p).length - 1)).length =
          (strSplit '/' p).length - 1 := by
        rw [List.length_take]
        omega
      intro hc
      rw [hc] at this
      simp at this
      omega
    · exact hplain
    · intro seg hseg
      have hmem : seg ∈ strSplit '/' p := List.mem_of_mem_take hseg
      rcases List.mem_map.mp hmem with ⟨piece, hpiece, rfl⟩
      rw [data_mk]
      exact splitC_sep_free '/' p.data piece hpiece

/-- Witness for C5: the three cases applied at `a/b/c`,
`node_modules/react/index` and `x`. -/
theorem getDirectoryPath_cases_witness :
    getDirectoryPath "a/b/c" =
        some (strJoin '/' ((strSplit '/' "a/b/c").take ((strSplit '/' "a/b/c").length - 1))) ∧
      getDirectoryPath "node_modules/react/index" = some "node_modules" ∧
      getDirectoryPath "x" = none :=
  ⟨getDirectoryPath_cases.2.2 "a/b/c" (by decide) (by decide) (by decide),
    getDirectoryPath_cases.1 "node_modules/react/index" (by decide),
    getDirectoryPath_cases.2.1 "x" (by decide) (by decide)⟩

/-! ## Helper lemmas: first-seen deduplication -/

theorem isSameNode_refl (a : Node) : isSameNode a a = true := by
  simp [isSameNode]

theorem isSameNode_trans {a b c : Node} (h1 : isSameNode a b = true)
    (h2 : isSameNode b c = true) : isSameNode a c = true := by
  simp only [isSameNode, beq_iff_eq] at *
  exact h1.trans h2

theorem isSameRelation_refl (a : Relation) : isSameRelation a a = true := by
  simp [isSameRelation, isSameNode_refl]

theorem isSameRelation_trans {a b c : Relation} (h1 : isSameRelation a b = true)
    (h2 : isSameRelation b c = true) : isSameRelation a c = true := by
  simp only [isSameRelation, Bool.and_eq_true] at *
  exact ⟨isSameNode_trans h1.1 h2.1, isSameNode_trans h1.2 h2.2⟩

theorem foldl_uniqueStep_subset {α : Type} {eqv : α → α → Bool} :
    ∀ (l acc : List α) (x : α), x ∈ l.foldl (uniqueStep eqv) acc → x ∈ acc ∨ x ∈ l := by
  intro l
  induction l with
  | nil => intro acc x hx; exact Or.inl hx
  | cons y t ih =>
    intro acc x hx
    rcases ih _ x hx with h | h
    · unfold uniqueStep at h
      split at h
      · exact Or.inl h
      · rcases List.mem_append.mp h with h2 | h2
        · exact Or.inl h2
        · simp only [List.mem_singleton] at h2
          exact Or.inr (h2 ▸ List.mem_cons_self y t)
    · exact Or.inr (List.mem_cons_of_mem y h)

theorem foldl_uniqueStep_acc_subset {α : Type} {eqv : α → α → Bool} :
    ∀ (l acc : List α), acc ⊆ l.foldl (uniqueStep eqv) acc := by
  intro l
  induction l with
  | nil => intro acc; exact fun _ h => h
  | cons y t ih =>
    intro acc
    refine List.Subset.trans ?_ (ih (uniqueStep eqv acc y))
    unfold uniqueStep
    split
    · exact fun _ h => h
    · exact fun a ha => List.mem_append.mpr (Or.inl ha)

theorem foldl_uniqueStep_noop {α : Type} {eqv : α → α → Bool} :
    ∀ (l acc : List α), (∀ y ∈ l, acc.any (fun a => eqv a y) = true) →
      l.foldl (uniqueStep eqv) acc = acc := by
  intro l
  induction l with
  | nil => intro acc _; rfl
  | cons y t ih =>
    intro acc h
    rw [List.foldl_cons]
    have hstep : uniqueStep eqv acc y = acc := by
      unfold uniqueStep
      rw [if_pos (h y (List.mem_cons_self y t))]
    rw [hstep]
    exact ih acc (fun z hz => h z (List.mem_cons_of_mem y hz))

theorem foldl_uniqueStep_all_new {α : Type} {eqv : α → α → Bool} :
    ∀ (l acc : List α), List.Pairwise (fun a b => eqv a b = false) l →
      (∀ y ∈ l, acc.any (fun a => eqv a y) = false) →
      l.foldl (uniqueStep eqv) acc = acc ++ l := by
  intro l
  induction l with
  | nil => intro acc _ _; rw [List.foldl_nil, List.append_nil]
  | cons y t ih =>
    intro acc hp h
    rw [List.foldl_cons]
    have hstep : uniqueStep eqv acc y = acc ++ [y] := by
      unfold uniqueStep
      rw [if_neg (by rw [h y (List.mem_cons_self y t)]; exact Bool.false_ne_true)]
    rw [hstep, ih (acc ++ [y]) (List.Pairwise.of_cons hp) ?_]
    · rw [List.append_assoc, List.singleton_append]
    · intro z hz
      rw [List.any_append]
      have h1 : acc.any (fun a => eqv a z) = false := h z (List.mem_cons_of_mem y hz)
      have h2 : [y].any (fun a => eqv a z) = false := by
        simp only [List.any_cons, List.any_nil, Bool.or_false]
        exact (List.pairwise_cons.mp hp).1 z hz
      rw [h1, h2]
      rfl

theorem uniqueBy_self {α : Type} {eqv : α → α → Bool} {l : List α}
    (hp : List.Pairwise (fun a b => eqv a b = false) l) : uniqueBy eqv l = l := by
  unfold uniqueBy
  rw [foldl_uniqueStep_all_new l [] hp (fun y _ => rfl), List.nil_append]

theorem foldl_uniqueStep_mem_pres {α : Type} {eqv : α → α → Bool}
    (htrans : ∀ a b c, eqv a b = true → eqv b c = true → eqv a c = true) :
    ∀ (l acc : List α) (y : α), (∃ x ∈ l, eqv x y = true) →
      ∃ x ∈ l.foldl (uniqueStep eqv) acc, eqv x y = true := by
  intro l
  induction l with
  | nil => rintro acc y ⟨x, hx, -⟩; simp at hx
  | cons x0 t ih =>
    rintro acc y ⟨x, hx, hxy⟩
    rcases List.mem_cons.mp hx with rfl | hx
    · rw [List.foldl_cons]
      cases hany : acc.any (fun a => eqv a x) with
      | true =>
        rcases List.any_eq_true.mp hany with ⟨a, ha, hax⟩
        refine ⟨a, ?_, htrans a x y hax hxy⟩
        apply foldl_uniqueStep_acc_subset t (uniqueStep eqv acc x)
        unfold uniqueStep
        rw [if_pos hany]
        exact ha
      | false =>
        refine ⟨x, ?_, hxy⟩
        apply foldl_uniqueStep_acc_subset t (uniqueStep eqv acc x)
        unfold uniqueStep
        rw [if_neg (by rw [hany]; exact Bool.false_ne_true)]
        exact List.mem_append.mpr (Or.inr (List.mem_singleton_self x))
    · rw [List.foldl_cons]
      exact ih _ y ⟨x, hx, hxy⟩

theorem foldl_uniqueStep_pairwise {α : Type} {eqv : α → α → Bool} :
    ∀ (l acc : List α), List.Pairwise (fun a b => eqv a b = false) acc →
      List.Pairwise (fun a b => eqv a b = false) (l.foldl (uniqueStep eqv) acc) := by
  intro l
  induction l with
  | nil => intro acc h; exact h
  | cons y t ih =>
    intro acc h
    rw [List.foldl_cons]
    apply ih
    unfold uniqueStep
    cases hany : acc.any (fun a => eqv a y) with
    | true => exact h
    | false =>
      simp only [if_neg Bool.false_ne_true]
      apply List.pairwise_append.mpr
      refine ⟨h, List.pairwise_singleton _ y, ?_⟩
      intro a ha b hb
      simp only [List.mem_singleton] at hb
      subst hb
      exact Bool.eq_false_iff.mpr ((List.any_eq_false.mp hany) a ha)

theorem uniqueBy_pairwise {α : Type} {eqv : α → α → Bool} (l : List α) :
    List.Pairwise (fun a b => eqv a b = false) (uniqueBy eqv l) :=
  foldl_uniqueStep_pairwise l [] (List.Pairwise.nil)

/-! ## Claim C1: filtering with no include and no exclude -/

/-- C1 counterexample: on a graph whose relation sequence repeats the same
endpoint pair, filtering with no include and no exclude deduplicates — the
output relation sequence is `[a→a]`, not the input `[a→a, a→a]`. -/
theorem filterGraph_no_filters_dup_cex :
    (filterGraph none none
          ⟨[⟨"a", "a", false, false⟩],
            [⟨⟨"a", "a", false, false⟩, ⟨"a", "a", false, false⟩, ""⟩,
              ⟨⟨"a", "a", false, false⟩, ⟨"a", "a", false, false⟩, ""⟩]⟩).relations.map
        (fun r => (r.from.path, r.to.path)) = [("a", "a")] ∧
      ([⟨⟨"a", "a", false, false⟩, ⟨"a", "a", false, false⟩, ""⟩,
          ⟨⟨"a", "a", false, false⟩, ⟨"a", "a", false, false⟩, ""⟩] : List Relation).map
        (fun r => (r.from.path, r.to.path)) = [("a", "a"), ("a", "a")] := by
  refine ⟨by decide, by decide⟩

/-- C1 (amended): for a well-formed graph — node paths pairwise distinct,
relations pairwise distinct by endpoint pair, every relation endpoint present
among the nodes by path — filtering with include and exclude both absent
returns the graph itself, so node and relation sequences agree (by path and by
endpoint pair) in the same order. -/
theorem filterGraph_no_filters_identity (g : Graph)
    (hn : List.Pairwise (fun a b => isSameNode a b = false) g.nodes)
    (hr : List.Pairwise (fun a b => isSameRelation a b = false) g.relations)
    (hc : ∀ r ∈ g.relations,
      (∃ n ∈ g.nodes, isSameNode n r.from = true) ∧ (∃ n ∈ g.nodes, isSameNode n r.to = true)) :
    filterGraph none none g = g ∧
      (filterGraph none none g).nodes.map Node.path = g.nodes.map Node.path ∧
      (filterGraph none none g).relations.map (fun r => (r.from.path, r.to.path)) =
        g.relations.map (fun r => (r.from.path, r.to.path)) := by
  have hkeptR : keptRelations none none g = g.relations := rfl
  have hkeptN : keptNodes none none g = g.nodes := rfl
  have hcov : ∀ y ∈ readmitted none none g,
      (g.relations).any (fun a => isSameRelation a y) = true := by
    intro y hy
    exact List.any_eq_true.mpr ⟨y, List.mem_of_mem_filter hy, isSameRelation_refl y⟩
  have hrels : getUniqueRelations (keptRelations none none g ++ readmitted none none g) =
      g.relations := by
    unfold getUniqueRelations uniqueBy
    rw [hkeptR, List.foldl_append,
      foldl_uniqueStep_all_new g.relations [] hr (fun y _ => rfl), List.nil_append,
      foldl_uniqueStep_noop _ _ hcov]
  have hext : extractUniqueNodes ⟨g.nodes, g.relations⟩ = g.nodes := by
    unfold extractUniqueNodes getUniqueNodes uniqueBy
    have hcov2 : ∀ y ∈ (⟨g.nodes, g.relations⟩ : Graph).relations.flatMap
        (fun r => [r.from, r.to]), (g.nodes).any (fun a => isSameNode a y) = true := by
      intro y hy
      rcases List.mem_flatMap.mp hy with ⟨r, hrm, hyr⟩
      rcases hc r hrm with ⟨⟨n1, hn1, he1⟩, ⟨n2, hn2, he2⟩⟩
      rcases List.mem_cons.mp hyr with rfl | hyr
      · exact List.any_eq_true.mpr ⟨n1, hn1, he1⟩
      · simp only [List.mem_singleton] at hyr
        subst hyr
        exact List.any_eq_true.mpr ⟨n2, hn2, he2⟩
    rw [List.foldl_append, foldl_uniqueStep_all_new g.nodes [] hn (fun y _ => rfl),
      List.nil_append, foldl_uniqueStep_noop _ _ hcov2]
  have hmain : filterGraph none none g = g := by
    show (⟨extractUniqueNodes ⟨keptNodes none none g,
        getUniqueRelations (keptRelations none none g ++ readmitted none none g)⟩,
      getUniqueRelations (keptRelations none none g ++ readmitted none none g)⟩ : Graph) = g
    rw [hrels, hkeptN, hext]
  exact ⟨hmain, by rw [hmain], by rw [hmain]⟩

/-- Witness for C1: the identity applied to a concrete two-node one-relation
graph. -/
theorem filterGraph_no_filters_identity_witness :
    filterGraph none none
        ⟨[⟨"a", "a", false, false⟩, ⟨"b", "b", false, false⟩],
          [⟨⟨"a", "a", false, false⟩, ⟨"b", "b", false, false⟩, "import"⟩]⟩ =
      ⟨[⟨"a", "a", false, false⟩, ⟨"b", "b", false, false⟩],
        [⟨⟨"a", "a", false, false⟩, ⟨"b", "b", false, false⟩, "import"⟩]⟩ :=
  (filterGraph_no_filters_identity _ (by decide) (by decide) (by decide)).1

/-! ## Claim C2: bridge-edge re-admission -/

/-- C2 counterexample: with `include = ["b"]` on nodes `[a]` and relations
`[a→b, a→a]`, the kept relations are `[a→b]`, so the claim's referenced-node
set `{a, b}` contains both endpoints of the not-kept relation `a→a`; yet the
output holds no relation with pair `(a, a)`, because the source first filters
the referenced nodes through `tmpNodes.some(t => !isSameNode(node, t))`,
which is empty-false here (`tmpNodes = []`). -/
theorem filterGraph_bridge_empty_kept_cex :
    keptRelations (some ["b"]) none
        ⟨[⟨"a", "a", false, false⟩],
          [⟨⟨"a", "a", false, false⟩, ⟨"b", "b", false, false⟩, ""⟩,
            ⟨⟨"a", "a", false, false⟩, ⟨"a", "a", false, false⟩, ""⟩]⟩ =
      [⟨⟨"a", "a", false, false⟩, ⟨"b", "b", false, false⟩, ""⟩] ∧
    (getUniqueNodes ((keptRelations (some ["b"]) none
          ⟨[⟨"a", "a", false, false⟩],
            [⟨⟨"a", "a", false, false⟩, ⟨"b", "b", false, false⟩, ""⟩,
              ⟨⟨"a", "a", false, false⟩, ⟨"a", "a", false, false⟩, ""⟩]⟩).flatMap
        (fun r => [r.from, r.to]))).any
      (fun n => isSameNode n (⟨"a", "a", false, false⟩ : Node)) = true ∧
    (∀ k ∈ keptRelations (some ["b"]) none
        ⟨[⟨"a", "a", false, false⟩],
          [⟨⟨"a", "a", false, false⟩, ⟨"b", "b", false, false⟩, ""⟩,
            ⟨⟨"a", "a", false, false⟩, ⟨"a", "a", false, false⟩, ""⟩]⟩,
      isSameRelation k ⟨⟨"a", "a", false, false⟩, ⟨"a", "a", false, false⟩, ""⟩ = false) ∧
    (∀ f ∈ (filterGraph (some ["b"]) none
        ⟨[⟨"a", "a", false, false⟩],
          [⟨⟨"a", "a", false, false⟩, ⟨"b", "b", false, false⟩, ""⟩,
            ⟨⟨"a", "a", false, false⟩, ⟨"a", "a", false, false⟩, ""⟩]⟩).relations,
      isSameRelation f ⟨⟨"a", "a", false, false⟩, ⟨"a", "a", false, false⟩, ""⟩ = false) := by
  refine ⟨by decide, by decide, by decide, by decide⟩

/-- C2 (amended): an original relation not kept by the include/exclude pass is
re-admitted (its pair appears in the final relation list) iff both its
endpoints occur, by path, in `relationNodes` — the deduplicated endpoints of
the kept relations RESTRICTED to nodes for which some kept node is not
path-equal to them (so in particular nothing is re-admitted when no node
survives the passes); the final list is the kept relations followed by the
re-admitted ones, deduplicated by endpoint pair. -/
theorem filterGraph_bridge_readmission (inc exc : Option (List String)) (g : Graph)
    (r : Relation) (hmem : r ∈ g.relations)
    (hkept : ∀ k ∈ keptRelations inc exc g, isSameRelation k r = false) :
    ((∃ f ∈ (filterGraph inc exc g).relations, isSameRelation f r = true) ↔
      ((relationNodes inc exc g).any (fun n => isSameNode n r.from) = true ∧
        (relationNodes inc exc g).any (fun n => isSameNode n r.to) = true)) ∧
    List.Pairwise (fun a b => isSameRelation a b = false) (filterGraph inc exc g).relations := by
  constructor
  · constructor
    · rintro ⟨f, hf, heq⟩
      have hf2 : f ∈ keptRelations inc exc g ++ readmitted inc exc g := by
        have hsub := @foldl_uniqueStep_subset _ isSameRelation
          (keptRelations inc exc g ++ readmitted inc exc g) [] f hf
        rcases hsub with h | h
        · simp at h
        · exact h
      rcases List.mem_append.mp hf2 with hfk | hfr
      · rw [hkept f hfk] at heq
        exact absurd heq (by simp)
      · have hpred := (List.mem_filter.mp hfr).2
        rw [Bool.and_eq_true] at hpred
        have hsame : isSameNode f.from r.from = true ∧ isSameNode f.to r.to = true := by
          simpa [isSameRelation, Bool.and_eq_true] using heq
        constructor
        · rcases List.any_eq_true.mp hpred.1 with ⟨n, hn, hnf⟩
          exact List.any_eq_true.mpr ⟨n, hn, isSameNode_trans hnf hsame.1⟩
        · rcases List.any_eq_true.mp hpred.2 with ⟨n, hn, hnf⟩
          exact List.any_eq_true.mpr ⟨n, hn, isSameNode_trans hnf hsame.2⟩
    · rintro ⟨h1, h2⟩
      have hradm : r ∈ readmitted inc exc g :=
        List.mem_filter.mpr ⟨hmem, by rw [Bool.and_eq_true]; exact ⟨h1, h2⟩⟩
      show ∃ f ∈ uniqueBy isSameRelation (keptRelations inc exc g ++ readmitted inc exc g),
        isSameRelation f r = true
      exact @foldl_uniqueStep_mem_pres _ isSameRelation
        (fun a b c hab hbc => isSameRelation_trans hab hbc)
        (keptRelations inc exc g ++ readmitted inc exc g) [] r
        ⟨r, List.mem_append.mpr (Or.inr hradm), isSameRelation_refl r⟩
  · exact uniqueBy_pairwise (keptRelations inc exc g ++ readmitted inc exc g)

/-- Witness for C2: on the concrete instance of the counterexample the
re-admission criterion evaluates to false, so the theorem yields that no
output relation carries the pair `(a, a)`. -/
theorem filterGraph_bridge_readmission_witness :
    ¬ ∃ f ∈ (filterGraph (some ["b"]) none
        ⟨[⟨"a", "a", false, false⟩],
          [⟨⟨"a", "a", false, false⟩, ⟨"b", "b", false, false⟩, ""⟩,
            ⟨⟨"a", "a", false, false⟩, ⟨"a", "a", false, false⟩, ""⟩]⟩).relations,
      isSameRelation f ⟨⟨"a", "a", false, false⟩, ⟨"a", "a", false, false⟩, ""⟩ = true := by
  have h := (filterGraph_bridge_readmission (some ["b"]) none
    ⟨[⟨"a", "a", false, false⟩],
      [⟨⟨"a", "a", false, false⟩, ⟨"b", "b", false, false⟩, ""⟩,
        ⟨⟨"a", "a", false, false⟩, ⟨"a", "a", false, false⟩, ""⟩]⟩
    ⟨⟨"a", "a", false, false⟩, ⟨"a", "a", false, false⟩, ""⟩ (by decide) (by decide)).1
  intro hex
  exact absurd (h.mp hex) (by decide)

/-! ## Claim C7: relation rendering -/

/-- C7: the serializer emits, after the tree section, exactly one arrow line
per relation — `writeRelations` writes two strings per relation (the arrow
line built from the sanitized endpoint identifiers, then a newline), in the
relation sequence's original order, with no sorting and no deduplication, and
`mermaidify` places this block right after the subgraph tree. -/
theorem writeRelations_lines (relations : List Relation) :
    (writeRelations relations).length = 2 * relations.length ∧
    (∀ (i : Nat) (h : i < relations.length),
      (writeRelations relations).get? (2 * i) =
        some ("    " ++ fileNameToMermaidId (relations.get ⟨i, h⟩).from.path ++ "-->" ++
          fileNameToMermaidId (relations.get ⟨i, h⟩).to.path) ∧
      (writeRelations relations).get? (2 * i + 1) = some "\n") ∧
    (∀ (g : Graph) (options : Options), ∃ header : List String,
      mermaidify g options =
        header ++ writeFileNodesWithSubgraph (createDirAndNodesTree g) ++
          writeRelations g.relations ++
          (if options.mermaidLink then
            writeFileLink (createDirAndNodesTree g) options.rootDir else [])) := by
  refine ⟨?_, ?_, ?_⟩
  · induction relations with
    | nil => rfl
    | cons r rs ih =>
      have hcons : writeRelations (r :: rs) =
          ("    " ++ fileNameToMermaidId r.from.path ++ "-->" ++
            fileNameToMermaidId r.to.path) :: "\n" :: writeRelations rs := rfl
      rw [hcons, List.length_cons, List.length_cons, ih, List.length_cons]
      ring
  · induction relations with
    | nil => intro i h; exact absurd h (by simp)
    | cons r rs ih =>
      intro i h
      have hcons : writeRelations (r :: rs) =
          ("    " ++ fileNameToMermaidId r.from.path ++ "-->" ++
            fileNameToMermaidId r.to.path) :: "\n" :: writeRelations rs := rfl
      cases i with
      | zero => exact ⟨by rw [hcons]; rfl, by rw [hcons]; rfl⟩
      | succ i =>
        have h2 : i < rs.length := by simpa using Nat.lt_of_succ_lt_succ h
        have e1 : 2 * (i + 1) = 2 * i + 1 + 1 := by ring
        have e2 : 2 * (i + 1) + 1 = (2 * i + 1) + 1 + 1 := by ring
        have hget : (r :: rs).get ⟨i + 1, h⟩ = rs.get ⟨i, h2⟩ := rfl
        refine ⟨?_, ?_⟩
        · rw [e1, hcons, List.get?_cons_succ, List.get?_cons_succ, hget]
          exact (ih i h2).1
        · rw [e2, hcons, List.get?_cons_succ, List.get?_cons_succ]
          exact (ih i h2).2
  · intro g options
    refine ⟨(if options.LR then ["flowchart LR\n"]
        else if options.TB then ["flowchart TB\n"] else ["flowchart\n"])
      ++ (if options.abstraction then
            [indent ++ "classDef " ++ CLASSNAME_DIR ++ " fill:#0000,stroke:#999\n"] else [])
      ++ (if options.highlight then
            [indent ++ "classDef " ++ CLASSNAME_HIGHLIGHT ++ " fill:yellow,color:black\n"]
          else []), ?_⟩
    unfold mermaidify
    simp only [List.append_assoc]

/-- Witness for C7: the indexed characterization applied to a concrete
one-relation list. -/
theorem writeRelations_lines_witness :
    (writeRelations [⟨⟨"a", "a", false, false⟩, ⟨"b", "b", false, false⟩, ""⟩]).get? 0 =
        some "    a-->b" ∧
      (writeRelations [⟨⟨"a", "a", false, false⟩, ⟨"b", "b", false, false⟩, ""⟩]).get? 1 =
        some "\n" := by
  have h := (writeRelations_lines
    [⟨⟨"a", "a", false, false⟩, ⟨"b", "b", false, false⟩, ""⟩]).2.1 0 (by decide)
  refine ⟨?_, ?_⟩
  · have h0 := h.1
    rw [show 2 * 0 = 0 from rfl] at h0
    rw [h0]
    rfl
  · have h1 := h.2
    rw [show 2 * 0 + 1 = 1 from rfl] at h1
    exact h1

/-! ## Claim C8: totality -/

/-- C8: the three core operations are total functions of the embedding — every
graph, including a malformed one holding a node with an empty path string,
yields a result — and on the empty-path graph the output is degenerate (the
node has no computed directory, so the tree is empty and the serializer emits
only the header) rather than a failure. -/
theorem core_operations_total :
    (∀ (inc exc : Option (List String)) (g : Graph), ∃ g2 : Graph, filterGraph inc exc g = g2) ∧
      (∀ g : Graph, ∃ ts : List DirAndNodesTree, createDirAndNodesTree g = ts) ∧
      (∀ (g : Graph) (options : Options), ∃ out : List String, mermaidify g options = out) ∧
      getDirectoryPath "" = none ∧
      filterGraph none none ⟨[⟨"", "e", false, false⟩], []⟩ = ⟨[⟨"", "e", false, false⟩], []⟩ ∧
      createDirAndNodesTree ⟨[⟨"", "e", false, false⟩], []⟩ = [] ∧
      mermaidify ⟨[⟨"", "e", false, false⟩], []⟩ {} = ["flowchart\n"] := by
  refine ⟨fun inc exc g => ⟨_, rfl⟩, fun g => ⟨_, rfl⟩, fun g o => ⟨_, rfl⟩,
    by decide, by decide, rfl, by decide⟩

/-! ## Helper lemmas: normalized directory strings

`getDirectoryPath` emits either the literal `node_modules` or a `path.join`
result; the latter is always a POSIX-normalized relative path — a run of `..`
segments followed by plain names, or the single string `.`.  These lemmas
establish that normal form and that the ancestor-chain construction of
`allDir` behaves like plain prefix joins on it. -/

theorem str_ext {s t : String} (h : s.data = t.data) : s = t := by
  rw [← mk_data s, ← mk_data t, h]

theorem strJoin_ne_empty {parts : List String} (hne : parts ≠ [])
    (h : ∀ p ∈ parts, p ≠ "") : strJoin '/' parts ≠ "" := by
  obtain ⟨p0, rest, rfl⟩ : ∃ p0 rest, parts = p0 :: rest := by
    cases parts with
    | nil => exact absurd rfl hne
    | cons a t => exact ⟨a, t, rfl⟩
  have hdata_ne : ∀ p ∈ p0.data :: rest.map String.data, p ≠ [] := by
    intro p hp
    rcases List.mem_cons.mp hp with rfl | hp
    · intro hc
      exact h p0 (List.mem_cons_self p0 rest) (by rw [← mk_data p0, hc])
    · rcases List.mem_map.mp hp with ⟨q, hq, rfl⟩
      intro hc
      exact h q (List.mem_cons_of_mem p0 hq) (by rw [← mk_data q, hc])
  have hspec := @joinC_plain '/' (rest.map String.data) p0.data hdata_ne
  intro hc
  exact hspec.1 (by rw [show joinC ['/'] (p0.data :: rest.map String.data) =
    (strJoin '/' (p0 :: rest)).data from rfl, hc])

/-- Evaluation of `posixNormalize` on a separator join whose pieces are
nonempty and slash-free, given that the segment fold fixes the list. -/
theorem posixNormalize_fixed {M : List String} (hne : M ≠ [])
    (hM : ∀ s ∈ M, s ≠ "" ∧ '/' ∉ s.data)
    (hfold : M.foldl (normStep true) [] = M.reverse) :
    posixNormalize (strJoin '/' M) = strJoin '/' M := by
  obtain ⟨p0, rest, rfl⟩ : ∃ p0 rest, M = p0 :: rest := by
    cases M with
    | nil => exact absurd rfl hne
    | cons a t => exact ⟨a, t, rfl⟩
  have hdata_ne : ∀ p ∈ p0.data :: rest.map String.data, p ≠ [] := by
    intro p hp
    rcases List.mem_cons.mp hp with rfl | hp
    · intro hc
      exact (hM p0 (List.mem_cons_self p0 rest)).1 (by rw [← mk_data p0, hc])
    · rcases List.mem_map.mp hp with ⟨q, hq, rfl⟩
      intro hc
      exact (hM q (List.mem_cons_of_mem p0 hq)).1 (by rw [← mk_data q, hc])
  have hdata_free : ∀ p ∈ p0.data :: rest.map String.data, '/' ∉ p := by
    intro p hp
    rcases List.mem_cons.mp hp with rfl | hp
    · exact (hM p0 (List.mem_cons_self p0 rest)).2
    · rcases List.mem_map.mp hp with ⟨q, hq, rfl⟩
      exact (hM q (List.mem_cons_of_mem p0 hq)).2
  have hjspec := @joinC_plain '/' (rest.map String.data) p0.data hdata_ne
  have hdata : (strJoin '/' (p0 :: rest)).data = joinC ['/'] (p0.data :: rest.map String.data) :=
    rfl
  have hjoin_ne : strJoin '/' (p0 :: rest) ≠ "" :=
    strJoin_ne_empty (by simp) (fun p hp => (hM p hp).1)
  have hAbsF : ((strJoin '/' (p0 :: rest)).data.head? == some '/') = false := by
    rw [hdata, hjspec.2.1]
    apply beq_eq_false_iff_ne.mpr
    intro hc
    exact hdata_free p0.data (List.mem_cons_self _ _) (head?_some_mem hc)
  have hTrailF : ((strJoin '/' (p0 :: rest)).data.getLast? == some '/') = false := by
    rw [hdata, hjspec.2.2]
    apply beq_eq_false_iff_ne.mpr
    intro hc
    have hmem := @getLast?_getD_mem _ (p0.data :: rest.map String.data) (by simp) []
    exact hdata_free _ hmem (mem_of_getLast?_eq hc)
  unfold posixNormalize
  rw [if_neg hjoin_ne]
  dsimp only
  simp only [hAbsF, hTrailF, Bool.not_false]
  rw [hdata, splitC_joinC (by simp) hdata_free]
  have hmk : (p0.data :: rest.map String.data).map String.mk = p0 :: rest := by
    simp only [List.map_cons, mk_data, List.map_map]
    congr 1
    apply List.map_id''
    intro s
    exact mk_data s
  rw [hmk, hfold, List.reverse_reverse]
  rw [show (p0 :: rest).map String.data = p0.data :: rest.map String.data from rfl]
  rw [if_neg hjspec.1]
  simp only [Bool.false_eq_true, if_false, List.nil_append, List.append_nil]
  rfl

/-- A POSIX-normal relative segment list: a run of `..` segments followed by
plain names, all slash-free. -/
def NormSegs (L : List String) : Prop :=
  ∃ (k : Nat) (names : List String), L = List.replicate k ".." ++ names ∧
    (∀ s ∈ names, PlainSeg s) ∧ (∀ s ∈ L, '/' ∉ s.data)

theorem NormSegs_mem {L : List String} (h : NormSegs L) :
    ∀ s ∈ L, s ≠ "" ∧ '/' ∉ s.data := by
  rcases h with ⟨k, names, rfl, hplain, hfree⟩
  intro s hs
  refine ⟨?_, hfree s hs⟩
  rcases List.mem_append.mp hs with hs | hs
  · rw [List.eq_of_mem_replicate hs]
    intro hc
    exact absurd hc (by decide)
  · exact (hplain s hs).1

theorem NormSegs_take {L : List String} (h : NormSegs L) (i : Nat) :
    NormSegs (L.take i) := by
  rcases h with ⟨k, names, rfl, hplain, hfree⟩
  refine ⟨min i k, names.take (i - k), ?_, ?_, ?_⟩
  · rw [List.take_append_eq_append_take, List.take_replicate, List.length_replicate]
  · intro s hs
    exact hplain s (List.mem_of_mem_take hs)
  · intro s hs
    exact hfree s (List.mem_of_mem_take hs)

theorem fold_normStep_dots :
    ∀ (k j : Nat), (List.replicate k "..").foldl (normStep true) (List.replicate j "..") =
      List.replicate (k + j) ".." := by
  intro k
  induction k with
  | zero =>
    intro j
    rw [Nat.zero_add]
    rfl
  | succ k ih =>
    intro j
    have hstep : normStep true (List.replicate j "..") ".." = List.replicate (j + 1) ".." := by
      cases j with
      | zero => rfl
      | succ j => rfl
    rw [List.replicate_succ, List.foldl_cons, hstep, ih (j + 1)]
    congr 1
    omega

theorem fold_normStep_normsegs {L : List String} (h : NormSegs L) :
    L.foldl (normStep true) [] = L.reverse := by
  rcases h with ⟨k, names, rfl, hplain, -⟩
  rw [List.foldl_append]
  have h1 : (List.replicate k "..").foldl (normStep true) [] = List.replicate k ".." := by
    have := fold_normStep_dots k 0
    simpa using this
  rw [h1, foldl_normStep_plain hplain, List.reverse_append, List.reverse_replicate]

/-- `posixNormalize` fixes the separator join of a nonempty normal segment
list. -/
theorem posixNormalize_normsegs {L : List String} (hne : L ≠ []) (h : NormSegs L) :
    posixNormalize (strJoin '/' L) = strJoin '/' L :=
  posixNormalize_fixed hne (NormSegs_mem h) (fold_normStep_normsegs h)

theorem joinC_append_singleton {sep : Char} :
    ∀ (X : List (List Char)) (y : List Char), X ≠ [] →
      joinC [sep] (X ++ [y]) = joinC [sep] X ++ sep :: y := by
  intro X
  induction X with
  | nil => intro y h; exact absurd rfl h
  | cons p t ih =>
    intro y _
    cases t with
    | nil =>
      show p ++ [sep] ++ y = p ++ sep :: y
      rw [List.append_assoc, List.singleton_append]
    | cons q u =>
      show p ++ [sep] ++ joinC [sep] ((q :: u) ++ [y]) =
        (p ++ [sep] ++ joinC [sep] (q :: u)) ++ sep :: y
      rw [ih y (by simp)]
      simp [List.append_assoc]

theorem strJoin_append_singleton {X : List String} {y : String} (h : X ≠ []) :
    strJoin '/' (X ++ [y]) = strJoin '/' X ++ "/" ++ y := by
  apply str_ext
  show joinC ['/'] ((X ++ [y]).map String.data) = (strJoin '/' X ++ "/" ++ y).data
  rw [List.map_append]
  rw [show ([y].map String.data) = [y.data] from rfl]
  rw [joinC_append_singleton (X.map String.data) y.data (by simpa using h)]
  rw [String.data_append, String.data_append]
  show (strJoin '/' X).data ++ '/' :: y.data = (strJoin '/' X).data ++ ['/'] ++ y.data
  simp [List.append_assoc]

/-- Evaluation of `posixNormalize` on a separator join of nonempty slash-free
pieces: the result is the rejoined normalizer stack, or `.` when the stack
empties. -/
theorem posixNormalize_eval {pieces : List String} (hne : pieces ≠ [])
    (hp : ∀ p ∈ pieces, p ≠ "" ∧ '/' ∉ p.data) :
    posixNormalize (strJoin '/' pieces) =
      (if joinC ['/'] (((pieces.foldl (normStep true) []).reverse).map String.data) = []
       then "."
       else String.mk
        (joinC ['/'] (((pieces.foldl (normStep true) []).reverse).map String.data))) := by
  obtain ⟨p0, rest, rfl⟩ : ∃ p0 rest, pieces = p0 :: rest := by
    cases pieces with
    | nil => exact absurd rfl hne
    | cons a t => exact ⟨a, t, rfl⟩
  have hdata_ne : ∀ p ∈ p0.data :: rest.map String.data, p ≠ [] := by
    intro p hpm
    rcases List.mem_cons.mp hpm with rfl | hpm
    · intro hc
      exact (hp p0 (List.mem_cons_self p0 rest)).1 (by rw [← mk_data p0, hc])
    · rcases List.mem_map.mp hpm with ⟨q, hq, rfl⟩
      intro hc
      exact (hp q (List.mem_cons_of_mem p0 hq)).1 (by rw [← mk_data q, hc])
  have hdata_free : ∀ p ∈ p0.data :: rest.map String.data, '/' ∉ p := by
    intro p hpm
    rcases List.mem_cons.mp hpm with rfl | hpm
    · exact (hp p0 (List.mem_cons_self p0 rest)).2
    · rcases List.mem_map.mp hpm with ⟨q, hq, rfl⟩
      exact (hp q (List.mem_cons_of_mem p0 hq)).2
  have hjspec := @joinC_plain '/' (rest.map String.data) p0.data hdata_ne
  have hdata : (strJoin '/' (p0 :: rest)).data = joinC ['/'] (p0.data :: rest.map String.data) :=
    rfl
  have hjoin_ne : strJoin '/' (p0 :: rest) ≠ "" :=
    strJoin_ne_empty (by simp) (fun p hpm => (hp p hpm).1)
  have hAbsF : ((strJoin '/' (p0 :: rest)).data.head? == some '/') = false := by
    rw [hdata, hjspec.2.1]
    apply beq_eq_false_iff_ne.mpr
    intro hc
    exact hdata_free p0.data (List.mem_cons_self _ _) (head?_some_mem hc)
  have hTrailF : ((strJoin '/' (p0 :: rest)).data.getLast? == some '/') = false := by
    rw [hdata, hjspec.2.2]
    apply beq_eq_false_iff_ne.mpr
    intro hc
    have hmem := @getLast?_getD_mem _ (p0.data :: rest.map String.data) (by simp) []
    exact hdata_free _ hmem (mem_of_getLast?_eq hc)
  unfold posixNormalize
  rw [if_neg hjoin_ne]
  dsimp only
  simp only [hAbsF, hTrailF, Bool.not_false]
  rw [hdata, splitC_joinC (by simp) hdata_free]
  have hmk : (p0.data :: rest.map String.data).map String.mk = p0 :: rest := by
    simp only [List.map_cons, mk_data, List.map_map]
    congr 1
    apply List.map_id''
    intro s
    exact mk_data s
  rw [hmk]
  simp only [Bool.false_eq_true, if_false, List.nil_append, List.append_nil]

/-- Stack invariant of the relative normalizer: plain names stacked above a
run of `..` segments (stack in most-recent-first order). -/
def StackInv (st : List String) : Prop :=
  ∃ (names : List String) (k : Nat), st = names ++ List.replicate k ".." ∧
    (∀ s ∈ names, PlainSeg s ∧ '/' ∉ s.data)

theorem normStep_stackInv {st : List String} {seg : String} (h : StackInv st)
    (hfree : '/' ∉ seg.data) : StackInv (normStep true st seg) := by
  rcases h with ⟨names, k, rfl, hnames⟩
  by_cases h1 : seg = "" ∨ seg = "."
  · rw [show normStep true (names ++ List.replicate k "..") seg =
      names ++ List.replicate k ".." from by unfold normStep; rw [if_pos h1]]
    exact ⟨names, k, rfl, hnames⟩
  · by_cases h2 : seg = ".."
    · subst h2
      cases names with
      | cons n ns =>
        have hn : n ≠ ".." := (hnames n (List.mem_cons_self n ns)).1.2.2
        rw [show normStep true ((n :: ns) ++ List.replicate k "..") ".." =
            ns ++ List.replicate k ".." from by
          unfold normStep
          rw [if_neg h1, if_pos rfl, List.cons_append]
          show (if n ≠ ".." then ns ++ List.replicate k ".."
            else if true = true then ".." :: (n :: ns ++ List.replicate k "..")
            else n :: ns ++ List.replicate k "..") = ns ++ List.replicate k ".."
          rw [if_pos hn]]
        exact ⟨ns, k, rfl, fun s hs => hnames s (List.mem_cons_of_mem n hs)⟩
      | nil =>
        cases k with
        | zero =>
          rw [show normStep true ([] ++ List.replicate 0 "..") ".." = [".."] from rfl]
          exact ⟨[], 1, rfl, by simp⟩
        | succ k2 =>
          rw [show normStep true ([] ++ List.replicate (k2 + 1) "..") ".." =
              [] ++ List.replicate (k2 + 2) ".." from rfl]
          exact ⟨[], k2 + 2, rfl, by simp⟩
    · have hplain : PlainSeg seg := ⟨fun hc => h1 (Or.inl hc), fun hc => h1 (Or.inr hc), h2⟩
      rw [normStep_plain hplain]
      exact ⟨seg :: names, k, rfl, by
        intro s hs
        rcases List.mem_cons.mp hs with rfl | hs
        · exact ⟨hplain, hfree⟩
        · exact hnames s hs⟩

theorem fold_normStep_stackInv :
    ∀ (segs : List String), (∀ s ∈ segs, '/' ∉ s.data) →
      ∀ (st : List String), StackInv st → StackInv (segs.foldl (normStep true) st) := by
  intro segs
  induction segs with
  | nil => intro _ st h; exact h
  | cons s t ih =>
    intro hfree st h
    rw [List.foldl_cons]
    exact ih (fun q hq => hfree q (List.mem_cons_of_mem s hq))
      _ (normStep_stackInv h (hfree s (List.mem_cons_self s t)))

/-- `posixNormalize` of a join of nonempty slash-free pieces is `.` or a
normalized relative path. -/
theorem posixNormalize_norm {pieces : List String} (hne : pieces ≠ [])
    (hp : ∀ p ∈ pieces, p ≠ "" ∧ '/' ∉ p.data) :
    posixNormalize (strJoin '/' pieces) = "." ∨
      NormSegs (strSplit '/' (posixNormalize (strJoin '/' pieces))) := by
  rw [posixNormalize_eval hne hp]
  rcases fold_normStep_stackInv pieces (fun s hs => (hp s hs).2) [] ⟨[], 0, rfl, by simp⟩ with
    ⟨names, k, hst, hnames⟩
  by_cases hcore : joinC ['/'] (((pieces.foldl (normStep true) []).reverse).map String.data) = []
  · rw [if_pos hcore]
    exact Or.inl rfl
  · rw [if_neg hcore]
    refine Or.inr ?_
    have hX : (pieces.foldl (normStep true) []).reverse =
        List.replicate k ".." ++ names.reverse := by
      rw [hst, List.reverse_append, List.reverse_replicate]
    have hXmem : ∀ s ∈ List.replicate k ".." ++ names.reverse, s ≠ "" ∧ '/' ∉ s.data := by
      intro s hs
      rcases List.mem_append.mp hs with hs | hs
      · rw [List.eq_of_mem_replicate hs]
        exact ⟨by decide, by decide⟩
      · have := hnames s (List.mem_reverse.mp hs)
        exact ⟨this.1.1, this.2⟩
    have hXne : List.replicate k ".." ++ names.reverse ≠ [] := by
      intro hc
      apply hcore
      rw [hX, hc]
      rfl
    rw [hX]
    unfold strSplit
    rw [data_mk, splitC_joinC (by simpa using hXne)
      (by
        intro p hpm
        rcases List.mem_map.mp hpm with ⟨q, hq, rfl⟩
        exact (hXmem q hq).2)]
    rw [List.map_map]
    have hid : (List.replicate k ".." ++ names.reverse).map (String.mk ∘ String.data) =
        List.replicate k ".." ++ names.reverse := by
      apply List.map_id''
      intro s
      exact mk_data s
    rw [hid]
    exact ⟨k, names.reverse, rfl, fun s hs => (hnames s (List.mem_reverse.mp hs)).1,
      fun s hs => (hXmem s hs).2⟩

/-- `path.join` of slash-free arguments yields `.` or a normalized relative
path. -/
theorem pathJoin_norm {parts : List String} (hfree : ∀ s ∈ parts, '/' ∉ s.data) :
    pathJoin parts = "." ∨ NormSegs (strSplit '/' (pathJoin parts)) := by
  unfold pathJoin
  by_cases hni : parts.filter (fun s => s != "") = []
  · rw [if_pos hni]
    exact Or.inl rfl
  · rw [if_neg hni]
    apply posixNormalize_norm hni
    intro p hpm
    have hm := List.mem_filter.mp hpm
    exact ⟨bne_iff_ne.mp hm.2, hfree p hm.1⟩

/-- Every directory `getDirectoryPath` produces is `.` or a normalized
relative path (in particular the `node_modules` bucket is one plain
segment). -/
theorem getDirectoryPath_norm {p d : String} (h : getDirectoryPath p = some d) :
    d = "." ∨ NormSegs (strSplit '/' d) := by
  unfold getDirectoryPath at h
  by_cases h1 : (strSplit '/' p).contains "node_modules" = true
  · rw [if_pos h1, Option.some_inj] at h
    subst h
    refine Or.inr ?_
    rw [show strSplit '/' "node_modules" = ["node_modules"] from by decide]
    exact ⟨0, ["node_modules"], rfl, by decide, by decide⟩
  · rw [if_neg h1] at h
    by_cases h2 : (strSplit '/' p).length = 1
    · rw [if_pos h2] at h
      exact absurd h (by simp)
    · rw [if_neg h2, Option.some_inj] at h
      subst h
      apply pathJoin_norm
      intro s hs
      have : s ∈ strSplit '/' p := List.mem_of_mem_take hs
      rcases List.mem_map.mp this with ⟨piece, hpiece, rfl⟩
      rw [data_mk]
      exact splitC_sep_free '/' p.data piece hpiece

/-- Extending a normalized prefix join by its next segment is a plain
concatenation: the normalizer fixes the longer join. -/
theorem pathJoin_extend {M : List String} {s : String} (hM : M ≠ [])
    (hN : NormSegs (M ++ [s])) :
    pathJoin [strJoin '/' M, s] = strJoin '/' (M ++ [s]) := by
  have hMmem : ∀ q ∈ M, q ≠ "" :=
    fun q hq => (NormSegs_mem hN q (List.mem_append.mpr (Or.inl hq))).1
  have ha : strJoin '/' M ≠ "" := strJoin_ne_empty hM hMmem
  have hs : s ≠ "" := (NormSegs_mem hN s (List.mem_append.mpr (Or.inr (by simp)))).1
  have hpair : strJoin '/' [strJoin '/' M, s] = strJoin '/' (M ++ [s]) := by
    rw [strJoin_append_singleton hM]
    apply str_ext
    show (strJoin '/' M).data ++ ['/'] ++ s.data = (strJoin '/' M ++ "/" ++ s).data
    rw [String.data_append, String.data_append]
  unfold pathJoin
  rw [show ([strJoin '/' M, s].filter (fun x => x != "")) = [strJoin '/' M, s] from by
    apply List.filter_eq_self.mpr
    intro a hamem
    rcases List.mem_cons.mp hamem with rfl | hamem
    · exact bne_iff_ne.mpr ha
    · simp only [List.mem_singleton] at hamem
      subst hamem
      exact bne_iff_ne.mpr hs]
  rw [if_neg (by simp), hpair]
  exact posixNormalize_normsegs (by simp) hN

/-- The `allDir` ancestor chain of a normalized segment list is the list of
its prefix joins. -/
theorem fold_dirChainStep_normsegs :
    ∀ (L : List String), NormSegs L →
      L.foldl dirChainStep [] =
        (List.range L.length).map (fun i => strJoin '/' (L.take (i + 1))) := by
  intro L
  induction L using List.reverseRecOn with
  | nil => intro _; rfl
  | append_singleton M s ih =>
    intro hN
    by_cases hMnil : M = []
    · subst hMnil
      rw [List.nil_append]
      show dirChainStep [] s = (List.range 1).map (fun i => strJoin '/' ([s].take (i + 1)))
      rw [show dirChainStep [] s = [s] from rfl]
      rw [show (List.range 1).map (fun i => strJoin '/' ([s].take (i + 1))) =
        [strJoin '/' [s]] from rfl]
      rw [show strJoin '/' [s] = s from str_ext (by rfl)]
    · have hMne : M ≠ [] := hMnil
      have hNM : NormSegs M := by
        have := NormSegs_take hN M.length
        rwa [List.take_left] at this
      have hchain := ih hNM
      rw [List.foldl_append, hchain]
      obtain ⟨ml, hlen⟩ : ∃ ml, M.length = ml + 1 := by
        cases M with
        | nil => exact absurd rfl hMne
        | cons a t => exact ⟨t.length, rfl⟩
      have hlast : ((List.range M.length).map
          (fun i => strJoin '/' (M.take (i + 1)))).getLast? = some (strJoin '/' M) := by
        rw [hlen, List.range_succ, List.map_append]
        rw [getLast?_append_right (by simp)]
        show some (strJoin '/' (M.take (ml + 1))) = some (strJoin '/' M)
        rw [← hlen, List.take_length]
      have hplen : strJoin '/' M ≠ "" :=
        strJoin_ne_empty hMne
          (fun q hq => (NormSegs_mem hN q (List.mem_append.mpr (Or.inl hq))).1)
      rw [show List.foldl dirChainStep
          ((List.range M.length).map (fun i => strJoin '/' (M.take (i + 1)))) [s] =
        dirChainStep ((List.range M.length).map (fun i => strJoin '/' (M.take (i + 1)))) s
        from rfl]
      rw [show dirChainStep ((List.range M.length).map (fun i => strJoin '/' (M.take (i + 1)))) s
          = ((List.range M.length).map (fun i => strJoin '/' (M.take (i + 1)))) ++
            [pathJoin [strJoin '/' M, s]] from by
        unfold dirChainStep
        rw [hlast]
        dsimp only
        rw [if_pos hplen]]
      rw [pathJoin_extend hMne hN]
      rw [List.length_append, List.length_singleton, List.range_succ, List.map_append]
      congr 1
      · apply List.map_congr_left
        intro i hi
        have hi2 : i + 1 ≤ M.length := List.mem_range.mp hi
        rw [List.take_append_of_le_length hi2]
      · show [strJoin '/' (M ++ [s])] = [strJoin '/' ((M ++ [s]).take (M.length + 1))]
        rw [show (M ++ [s]).take (M.length + 1) = M ++ [s] from by
          apply List.take_of_length_le
          rw [List.length_append, List.length_singleton]]

/-- Membership in the ancestor chain of a normalized directory string: the
elements are exactly the separator joins of the nonempty segment prefixes. -/
theorem mem_dirChain_iff {d : String} (h : d = "." ∨ NormSegs (strSplit '/' d)) (c : String) :
    c ∈ dirChain d ↔ ∃ i, 1 ≤ i ∧ i ≤ (strSplit '/' d).length ∧
      c = strJoin '/' ((strSplit '/' d).take i) := by
  rcases h with rfl | hN
  · rw [show dirChain "." = ["."] from by decide]
    constructor
    · intro hc
      simp only [List.mem_singleton] at hc
      subst hc
      exact ⟨1, le_refl 1, by decide, by decide⟩
    · rintro ⟨i, h1, h2, rfl⟩
      have h3 : (strSplit '/' ".").length = 1 := by decide
      have h4 : i = 1 := by omega
      subst h4
      rw [show strJoin '/' ((strSplit '/' ".").take 1) = "." from by decide]
      exact List.mem_singleton_self "."
  · unfold dirChain
    rw [fold_dirChainStep_normsegs (strSplit '/' d) hN]
    constructor
    · intro hc
      rcases List.mem_map.mp hc with ⟨i, hir, rfl⟩
      exact ⟨i + 1, by omega, List.mem_range.mp hir, rfl⟩
    · rintro ⟨i, h1, h2, rfl⟩
      refine List.mem_map.mpr ⟨i - 1, List.mem_range.mpr (by omega), ?_⟩
      rw [show i - 1 + 1 = i from by omega]

/-- The segment list of a prefix join of a normalized segment list is the
prefix itself. -/
theorem strSplit_strJoin_take {L : List String} (hN : NormSegs L) {i : Nat}
    (h1 : 1 ≤ i) (h2 : i ≤ L.length) :
    strSplit '/' (strJoin '/' (L.take i)) = L.take i := by
  apply strSplit_strJoin
  · intro hc
    have := congrArg List.length hc
    rw [List.length_take, List.length_nil] at this
    omega
  · intro p hpm
    exact (NormSegs_mem hN p (List.mem_of_mem_take hpm)).2

/-! ## Helper lemmas: allDir membership, dedup, and ancestor closure -/

theorem mem_allDirDedup :
    ∀ (l acc : List String) (x : String),
      x ∈ l.foldl allDirDedupStep acc ↔ x ∈ acc ∨ (x ∈ l ∧ x ≠ "") := by
  intro l
  induction l with
  | nil =>
    intro acc x
    simp
  | cons c t ih =>
    intro acc x
    rw [List.foldl_cons, ih]
    unfold allDirDedupStep
    by_cases h1 : c = ""
    · rw [if_pos h1]
      constructor
      · rintro (h | ⟨h, hne⟩)
        · exact Or.inl h
        · exact Or.inr ⟨List.mem_cons_of_mem c h, hne⟩
      · rintro (h | ⟨h, hne⟩)
        · exact Or.inl h
        · rcases List.mem_cons.mp h with rfl | h
          · exact absurd h1 hne
          · exact Or.inr ⟨h, hne⟩
    · rw [if_neg h1]
      by_cases h2 : acc.contains c = true
      · rw [if_pos h2]
        constructor
        · rintro (h | ⟨h, hne⟩)
          · exact Or.inl h
          · exact Or.inr ⟨List.mem_cons_of_mem c h, hne⟩
        · rintro (h | ⟨h, hne⟩)
          · exact Or.inl h
          · rcases List.mem_cons.mp h with rfl | h
            · exact Or.inl (List.mem_of_elem_eq_true h2)
            · exact Or.inr ⟨h, hne⟩
      · rw [if_neg h2]
        constructor
        · rintro (h | ⟨h, hne⟩)
          · rcases List.mem_append.mp h with h | h
            · exact Or.inl h
            · simp only [List.mem_singleton] at h
              subst h
              exact Or.inr ⟨List.mem_cons_self x t, h1⟩
          · exact Or.inr ⟨List.mem_cons_of_mem c h, hne⟩
        · rintro (h | ⟨h, hne⟩)
          · exact Or.inl (List.mem_append.mpr (Or.inl h))
          · rcases List.mem_cons.mp h with rfl | h
            · exact Or.inl (List.mem_append.mpr (Or.inr (List.mem_singleton_self x)))
            · exact Or.inr ⟨h, hne⟩

theorem nodup_allDirDedup :
    ∀ (l acc : List String), acc.Nodup → (l.foldl allDirDedupStep acc).Nodup := by
  intro l
  induction l with
  | nil => intro acc h; exact h
  | cons c t ih =>
    intro acc h
    rw [List.foldl_cons]
    apply ih
    unfold allDirDedupStep
    by_cases h1 : c = ""
    · rw [if_pos h1]; exact h
    · rw [if_neg h1]
      by_cases h2 : acc.contains c = true
      · rw [if_pos h2]; exact h
      · rw [if_neg h2]
        apply List.nodup_append.mpr
        refine ⟨h, List.nodup_singleton c, ?_⟩
        intro a ha hac
        simp only [List.mem_singleton] at hac
        subst hac
        exact h2 (List.elem_eq_true_of_mem ha)

theorem allDir_nodup (g : Graph) : (allDir g).Nodup :=
  nodup_allDirDedup _ [] List.nodup_nil

theorem mem_allDir_iff (g : Graph) (c : String) :
    c ∈ allDir g ↔
      (∃ n ∈ g.nodes, ∃ dp, getDirectoryPath n.path = some dp ∧ dp ≠ "" ∧ c ∈ dirChain dp) ∧
        c ≠ "" := by
  unfold allDir
  rw [mem_allDirDedup]
  constructor
  · rintro (h | ⟨h, hne⟩)
    · simp at h
    · rcases List.mem_flatten.mp h with ⟨l, hl, hcl⟩
      rcases List.mem_map.mp hl with ⟨dopt, hdo, rfl⟩
      rcases List.mem_map.mp hdo with ⟨n, hn, rfl⟩
      cases hdp : getDirectoryPath n.path with
      | none => rw [hdp] at hcl; simp at hcl
      | some dp =>
        rw [hdp] at hcl
        by_cases hdpe : dp = ""
        · rw [show (match some dp with
              | none => ([] : List String)
              | some dirPath => if dirPath = "" then [] else dirChain dirPath) =
            (if dp = "" then [] else dirChain dp) from rfl, if_pos hdpe] at hcl
          simp at hcl
        · rw [show (match some dp with
              | none => ([] : List String)
              | some dirPath => if dirPath = "" then [] else dirChain dirPath) =
            (if dp = "" then [] else dirChain dp) from rfl, if_neg hdpe] at hcl
          exact ⟨⟨n, hn, dp, hdp, hdpe, hcl⟩, hne⟩
  · rintro ⟨⟨n, hn, dp, hdp, hdpe, hc⟩, hne⟩
    refine Or.inr ⟨?_, hne⟩
    apply List.mem_flatten.mpr
    refine ⟨dirChain dp, ?_, hc⟩
    apply List.mem_map.mpr
    refine ⟨getDirectoryPath n.path, List.mem_map.mpr ⟨n, hn, rfl⟩, ?_⟩
    rw [hdp]
    show (if dp = "" then [] else dirChain dp) = dirChain dp
    rw [if_neg hdpe]

theorem mem_dirAndNodes (g : Graph) {x : DirAndNodes} (hx : x ∈ dirAndNodes g) :
    x.currentDir ∈ allDir g ∧ x.dirHierarchy = strSplit '/' x.currentDir ∧
      x.nodes = g.nodes.filter (fun node => getDirectoryPath node.path == some x.currentDir) := by
  rcases List.mem_map.mp hx with ⟨cd, hcd, rfl⟩
  exact ⟨hcd, rfl, rfl⟩

theorem dirAndNodes_nodupCd (g : Graph) :
    ((dirAndNodes g).map DirAndNodes.currentDir).Nodup := by
  unfold dirAndNodes
  rw [List.map_map]
  have hid : (allDir g).map (DirAndNodes.currentDir ∘ (fun currentDir =>
      (⟨currentDir, strSplit '/' currentDir,
        g.nodes.filter (fun node => getDirectoryPath node.path == some currentDir)⟩ :
        DirAndNodes))) = allDir g := by
    apply List.map_id''
    intro s
    rfl
  rw [hid]
  exact allDir_nodup g

theorem strSplit_injective {a b : String} (h : strSplit '/' a = strSplit '/' b) : a = b := by
  rw [← strJoin_strSplit '/' a, ← strJoin_strSplit '/' b, h]

theorem dirAndNodes_entry_of_cd (g : Graph) {cd : String} (h : cd ∈ allDir g) :
    (⟨cd, strSplit '/' cd,
      g.nodes.filter (fun node => getDirectoryPath node.path == some cd)⟩ : DirAndNodes) ∈
      dirAndNodes g :=
  List.mem_map.mpr ⟨cd, h, rfl⟩

theorem dirAndNodes_ancClosed (g : Graph) :
    ∀ x ∈ dirAndNodes g, ∀ j, 1 ≤ j → j ≤ x.dirHierarchy.length →
      ∃ y ∈ dirAndNodes g, y.dirHierarchy = x.dirHierarchy.take j := by
  intro x hx j hj1 hj2
  rcases List.mem_map.mp hx with ⟨cd, hcd, rfl⟩
  rcases (mem_allDir_iff g cd).mp hcd with ⟨⟨n, hn, dp, hdp, hdpe, hchain⟩, hcdne⟩
  have hdnorm := getDirectoryPath_norm hdp
  rcases (mem_dirChain_iff hdnorm cd).mp hchain with ⟨i, hi1, hi2, rfl⟩
  rcases hdnorm with hdot | hN
  · -- dp = "." : its split is ["."], so i = 1 and the directory is "." itself
    subst hdot
    have hL : strSplit '/' "." = ["."] := by decide
    have hi : i = 1 := by
      rw [hL] at hi2
      simp at hi2
      omega
    subst hi
    have hcd1 : strJoin '/' ((strSplit '/' ".").take 1) = "." := by decide
    have hlen : (strSplit '/' (strJoin '/' ((strSplit '/' ".").take 1))).length = 1 := by decide
    have hj2r : j ≤ (strSplit '/' (strJoin '/' ((strSplit '/' ".").take 1))).length := hj2
    have hj : j = 1 := by
      rw [hlen] at hj2r
      omega
    subst hj
    refine ⟨_, hx, ?_⟩
    show strSplit '/' (strJoin '/' ((strSplit '/' ".").take 1)) =
      (strSplit '/' (strJoin '/' ((strSplit '/' ".").take 1))).take 1
    decide
  · set L := strSplit '/' dp with hLdef
    have hsegcd : strSplit '/' (strJoin '/' (L.take i)) = L.take i :=
      strSplit_strJoin_take hN hi1 hi2
    have hlencd : (strSplit '/' (strJoin '/' (L.take i))).length = i := by
      rw [hsegcd, List.length_take]
      omega
    have hj2r : j ≤ (strSplit '/' (strJoin '/' (L.take i))).length := hj2
    have hj2' : j ≤ L.length := by
      rw [hlencd] at hj2r
      omega
    have hcj : strJoin '/' (L.take j) ∈ dirChain dp :=
      (mem_dirChain_iff (Or.inr hN) _).mpr ⟨j, hj1, hj2', rfl⟩
    have htakene : L.take j ≠ [] := by
      intro hcontra
      have := congrArg List.length hcontra
      rw [List.length_take, List.length_nil] at this
      omega
    have hcjne : strJoin '/' (L.take j) ≠ "" :=
      strJoin_ne_empty htakene
        (fun q hq => (NormSegs_mem hN q (List.mem_of_mem_take hq)).1)
    have hcdj : strJoin '/' (L.take j) ∈ allDir g :=
      (mem_allDir_iff g _).mpr ⟨⟨n, hn, dp, hdp, hdpe, hcj⟩, hcjne⟩
    refine ⟨_, dirAndNodes_entry_of_cd g hcdj, ?_⟩
    show strSplit '/' (strJoin '/' (L.take j)) =
      (strSplit '/' (strJoin '/' (L.take i))).take j
    rw [strSplit_strJoin_take hN hj1 hj2', hsegcd, List.take_take]
    have hji : j ≤ i := by
      rw [hlencd] at hj2r
      omega
    congr 1
    omega

/-! ## Helper lemmas: the tree recursion -/

theorem isChild_iff {p c : List String} :
    isChild p c = true ↔ c.length = p.length + 1 ∧ p <+: c := by
  unfold isChild
  by_cases hl : (p.length : Int) ≠ (c.length : Int) - 1
  · rw [if_pos hl]
    constructor
    · intro h
      exact absurd h (by simp)
    · rintro ⟨h1, -⟩
      exfalso
      apply hl
      omega
  · rw [if_neg hl]
    push_neg at hl
    constructor
    · intro h
      exact ⟨by omega, List.isPrefixOf_iff_prefix.mp h⟩
    · rintro ⟨-, h2⟩
      exact List.isPrefixOf_iff_prefix.mpr h2

theorem maxHierLen_bound :
    ∀ (all : List DirAndNodes), ∀ d ∈ all, d.dirHierarchy.length ≤ maxHierLen all := by
  intro all
  induction all with
  | nil => intro d hd; simp at hd
  | cons a t ih =>
    intro d hd
    show d.dirHierarchy.length ≤ max a.dirHierarchy.length (maxHierLen t)
    rcases List.mem_cons.mp hd with rfl | hd
    · exact le_max_left _ _
    · exact le_trans (ih d hd) (le_max_right _ _)

theorem createDirAndNodesRecF_fuel (all : List DirAndNodes) :
    ∀ (f1 f2 : Nat) (e : DirAndNodes),
      maxHierLen all + 1 ≤ f1 + e.dirHierarchy.length → 1 ≤ f1 →
      maxHierLen all + 1 ≤ f2 + e.dirHierarchy.length → 1 ≤ f2 →
      createDirAndNodesRecF all f1 e = createDirAndNodesRecF all f2 e := by
  intro f1
  induction f1 with
  | zero =>
    intro f2 e _ h
    exact absurd h (by omega)
  | succ g1 ih =>
    intro f2 e hc1 _ hc2 hf2
    obtain ⟨g2, rfl⟩ : ∃ g2, f2 = g2 + 1 := ⟨f2 - 1, by omega⟩
    have hmap : ∀ c ∈ all.filter (fun item => isChild e.dirHierarchy item.dirHierarchy),
        createDirAndNodesRecF all g1 c = createDirAndNodesRecF all g2 c := by
      intro c hc
      have hcall : c ∈ all := List.mem_of_mem_filter hc
      have hchild : isChild e.dirHierarchy c.dirHierarchy = true := (List.mem_filter.mp hc).2
      have hlen : c.dirHierarchy.length = e.dirHierarchy.length + 1 := (isChild_iff.mp hchild).1
      have hbound : c.dirHierarchy.length ≤ maxHierLen all := maxHierLen_bound all c hcall
      apply ih <;> omega
    simp only [createDirAndNodesRecF]
    rw [List.map_congr_left hmap]

/-- One-step unfolding of `createDirAndNodesRecursive`, with the recursive
occurrences back at full fuel. -/
theorem createDirAndNodesRecursive_eq (all : List DirAndNodes) (e : DirAndNodes) :
    createDirAndNodesRecursive all e =
      (if e.nodes.length = 0 ∧
          (all.filter (fun item => isChild e.dirHierarchy item.dirHierarchy)).length ≤ 1 then
        ((all.filter (fun item => isChild e.dirHierarchy item.dirHierarchy)).map
          (createDirAndNodesRecursive all)).flatten
      else
        [⟨e.currentDir, e.nodes,
          ((all.filter (fun item => isChild e.dirHierarchy item.dirHierarchy)).map
            (createDirAndNodesRecursive all)).flatten⟩]) := by
  show createDirAndNodesRecF all (maxHierLen all + 1) e = _
  simp only [createDirAndNodesRecF]
  have hmap : ∀ c ∈ all.filter (fun item => isChild e.dirHierarchy item.dirHierarchy),
      createDirAndNodesRecF all (maxHierLen all) c = createDirAndNodesRecursive all c := by
    intro c hc
    have hcall : c ∈ all := List.mem_of_mem_filter hc
    have hchild : isChild e.dirHierarchy c.dirHierarchy = true := (List.mem_filter.mp hc).2
    have hlen : c.dirHierarchy.length = e.dirHierarchy.length + 1 := (isChild_iff.mp hchild).1
    have hbound : c.dirHierarchy.length ≤ maxHierLen all := maxHierLen_bound all c hcall
    show _ = createDirAndNodesRecF all (maxHierLen all + 1) c
    apply createDirAndNodesRecF_fuel <;> omega
  rw [List.map_congr_left hmap]

theorem flattenTree_mk (cd : String) (ns : List Node) (cs : List DirAndNodesTree) :
    flattenTree ⟨cd, ns, cs⟩ = ⟨cd, ns, cs⟩ :: flattenForest cs := by
  simp [flattenTree]

theorem flattenForest_append :
    ∀ (l1 l2 : List DirAndNodesTree),
      flattenForest (l1 ++ l2) = flattenForest l1 ++ flattenForest l2 := by
  intro l1
  induction l1 with
  | nil => intro l2; rfl
  | cons t ts ih =>
    intro l2
    show flattenTree t ++ flattenForest (ts ++ l2) = flattenTree t ++ flattenForest ts ++ flattenForest l2
    rw [ih, List.append_assoc]

theorem flattenForest_flattenMap (f : DirAndNodes → List DirAndNodesTree) :
    ∀ (cs : List DirAndNodes),
      flattenForest ((cs.map f).flatten) = (cs.map (fun c => flattenForest (f c))).flatten := by
  intro cs
  induction cs with
  | nil => rfl
  | cons c t ih =>
    rw [List.map_cons, List.flatten_cons, flattenForest_append, ih, List.map_cons,
      List.flatten_cons]

theorem countP_flatten {α : Type} (p : α → Bool) :
    ∀ (L : List (List α)), (L.flatten).countP p = (L.map (fun l => l.countP p)).sum := by
  intro L
  induction L with
  | nil => rfl
  | cons l t ih =>
    rw [List.flatten_cons, List.countP_append, ih, List.map_cons, List.sum_cons]

theorem countP_eq_one_of_unique {α : Type} {p : α → Bool} :
    ∀ {l : List α} {a : α}, l.Nodup → a ∈ l → p a = true →
      (∀ b ∈ l, p b = true → b = a) → l.countP p = 1 := by
  intro l
  induction l with
  | nil =>
    intro a _ ha
    simp at ha
  | cons b t ih =>
    intro a hnd hmem hpa huniq
    rw [List.countP_cons]
    rcases List.mem_cons.mp hmem with rfl | hmem
    · have ht0 : t.countP p = 0 := by
        apply List.countP_eq_zero.mpr
        intro c hc hpc
        have hca : c = a := huniq c (List.mem_cons_of_mem a hc) hpc
        exact (List.nodup_cons.mp hnd).1 (hca ▸ hc)
      rw [ht0, hpa]
      rfl
    · have hpb : ¬ p b = true := by
        intro hpb
        have hba : b = a := huniq b (List.mem_cons_self b t) hpb
        exact (List.nodup_cons.mp hnd).1 (hba ▸ hmem)
      rw [if_neg hpb, Nat.add_zero]
      exact ih (List.nodup_cons.mp hnd).2 hmem hpa
        (fun c hc hpc => huniq c (List.mem_cons_of_mem b hc) hpc)

theorem sum_map_ite {α : Type} (P : α → Prop) [DecidablePred P] :
    ∀ (l : List α), (l.map (fun c => if P c then 1 else 0)).sum =
      l.countP (fun c => decide (P c)) := by
  intro l
  induction l with
  | nil => rfl
  | cons c t ih =>
    rw [List.map_cons, List.sum_cons, List.countP_cons, ih]
    by_cases hc : P c
    · rw [if_pos hc, if_pos (decide_eq_true hc)]
      omega
    · rw [if_neg hc, if_neg (by simpa using hc)]
      omega

/-- The condition under which the source keeps a directory record as its own
tree node: it owns a file, or it has two or more children. -/
def keptEntry (all : List DirAndNodes) (e : DirAndNodes) : Prop :=
  ¬(e.nodes.length = 0 ∧
    (all.filter (fun item => isChild e.dirHierarchy item.dirHierarchy)).length ≤ 1)

instance (all : List DirAndNodes) (e : DirAndNodes) : Decidable (keptEntry all e) := by
  unfold keptEntry
  infer_instance

theorem entry_cd_inj (all : List DirAndNodes)
    (H2 : (all.map DirAndNodes.currentDir).Nodup) :
    ∀ x ∈ all, ∀ y ∈ all, x.currentDir = y.currentDir → x = y := by
  intro x hx y hy h
  exact List.inj_on_of_nodup_map H2 hx hy h

theorem entry_inj (all : List DirAndNodes)
    (H1 : ∀ x ∈ all, x.dirHierarchy = strSplit '/' x.currentDir)
    (H2 : (all.map DirAndNodes.currentDir).Nodup) :
    ∀ x ∈ all, ∀ y ∈ all, x.dirHierarchy = y.dirHierarchy → x = y := by
  intro x hx y hy hh
  apply entry_cd_inj all H2 x hx y hy
  apply strSplit_injective
  rw [← H1 x hx, ← H1 y hy, hh]

theorem children_countP_connecting (all : List DirAndNodes)
    (H1 : ∀ x ∈ all, x.dirHierarchy = strSplit '/' x.currentDir)
    (H2 : (all.map DirAndNodes.currentDir).Nodup)
    (H3 : ∀ x ∈ all, ∀ j, 1 ≤ j → j ≤ x.dirHierarchy.length →
      ∃ y ∈ all, y.dirHierarchy = x.dirHierarchy.take j)
    (e : DirAndNodes) (d : String) {x : DirAndNodes} (hxall : x ∈ all)
    (hxcd : x.currentDir = d) (hxkept : keptEntry all x)
    (hxpre : e.dirHierarchy <+: x.dirHierarchy)
    (hxlen : e.dirHierarchy.length < x.dirHierarchy.length) :
    (all.filter (fun item => isChild e.dirHierarchy item.dirHierarchy)).countP
      (fun c => decide (∃ x' ∈ all, x'.currentDir = d ∧ keptEntry all x' ∧
        c.dirHierarchy <+: x'.dirHierarchy)) = 1 := by
  obtain ⟨y, hyall, hyhier⟩ := H3 x hxall (e.dirHierarchy.length + 1) (by omega) (by omega)
  have hylen : y.dirHierarchy.length = e.dirHierarchy.length + 1 := by
    rw [hyhier, List.length_take]
    omega
  have hepre_take : e.dirHierarchy = x.dirHierarchy.take e.dirHierarchy.length :=
    List.prefix_iff_eq_take.mp hxpre
  have heypre : e.dirHierarchy <+: y.dirHierarchy := by
    have hq : e.dirHierarchy =
        (x.dirHierarchy.take (e.dirHierarchy.length + 1)).take e.dirHierarchy.length := by
      rw [List.take_take,
        show min e.dirHierarchy.length (e.dirHierarchy.length + 1) = e.dirHierarchy.length
          from by omega]
      exact hepre_take
    have hp := List.take_prefix e.dirHierarchy.length
      (x.dirHierarchy.take (e.dirHierarchy.length + 1))
    rw [← hq] at hp
    rw [hyhier]
    exact hp
  have hychild : y ∈ all.filter (fun item => isChild e.dirHierarchy item.dirHierarchy) :=
    List.mem_filter.mpr ⟨hyall, isChild_iff.mpr ⟨by omega, heypre⟩⟩
  apply countP_eq_one_of_unique
  · exact List.Nodup.sublist (List.filter_sublist all) (List.Nodup.of_map _ H2)
  · exact hychild
  · apply decide_eq_true
    refine ⟨x, hxall, hxcd, hxkept, ?_⟩
    rw [hyhier]
    exact List.take_prefix _ _
  · intro c hc hQc
    rcases of_decide_eq_true hQc with ⟨x', hx'all, hx'cd, -, hcpre⟩
    have hx'x : x' = x := entry_cd_inj all H2 x' hx'all x hxall (hx'cd.trans hxcd.symm)
    subst hx'x
    have hclen : c.dirHierarchy.length = e.dirHierarchy.length + 1 :=
      (isChild_iff.mp (List.mem_filter.mp hc).2).1
    have hctake := List.prefix_iff_eq_take.mp hcpre
    have hcy : c.dirHierarchy = y.dirHierarchy := by
      rw [hctake, hclen, hyhier]
    exact entry_inj all H1 H2 c (List.mem_of_mem_filter hc) y hyall hcy

theorem countP_flattenTree_single (cd : String) (ns : List Node)
    (cs : List DirAndNodesTree) (d : String) :
    (flattenForest [(⟨cd, ns, cs⟩ : DirAndNodesTree)]).countP (fun t => t.currentDir == d) =
      (flattenForest cs).countP (fun t => t.currentDir == d) + (if cd = d then 1 else 0) := by
  have hfl : flattenForest [(⟨cd, ns, cs⟩ : DirAndNodesTree)] =
      flattenTree ⟨cd, ns, cs⟩ := by
    show flattenTree ⟨cd, ns, cs⟩ ++ flattenForest [] = flattenTree ⟨cd, ns, cs⟩
    rw [show flattenForest [] = [] from rfl, List.append_nil]
  rw [hfl, flattenTree_mk, List.countP_cons]
  congr 1
  by_cases h : cd = d
  · rw [if_pos h, if_pos (show ((⟨cd, ns, cs⟩ : DirAndNodesTree).currentDir == d) = true from
      beq_iff_eq.mpr h)]
  · rw [if_neg h, if_neg (show ¬ ((⟨cd, ns, cs⟩ : DirAndNodesTree).currentDir == d) = true from
      by simpa using h)]

theorem count_emitted_step (all : List DirAndNodes)
    (H1 : ∀ x ∈ all, x.dirHierarchy = strSplit '/' x.currentDir)
    (H2 : (all.map DirAndNodes.currentDir).Nodup)
    (H3 : ∀ x ∈ all, ∀ j, 1 ≤ j → j ≤ x.dirHierarchy.length →
      ∃ y ∈ all, y.dirHierarchy = x.dirHierarchy.take j)
    (e : DirAndNodes) (he : e ∈ all) (d : String)
    (hch : ∀ c ∈ all.filter (fun item => isChild e.dirHierarchy item.dirHierarchy),
      (flattenForest (createDirAndNodesRecursive all c)).countP (fun t => t.currentDir == d) =
        if ∃ x ∈ all, x.currentDir = d ∧ keptEntry all x ∧ c.dirHierarchy <+: x.dirHierarchy
        then 1 else 0) :
    (flattenForest (createDirAndNodesRecursive all e)).countP (fun t => t.currentDir == d) =
      if ∃ x ∈ all, x.currentDir = d ∧ keptEntry all x ∧ e.dirHierarchy <+: x.dirHierarchy
      then 1 else 0 := by
  have hchildsum :
      (flattenForest (((all.filter (fun item => isChild e.dirHierarchy item.dirHierarchy)).map
        (createDirAndNodesRecursive all)).flatten)).countP (fun t => t.currentDir == d) =
      (all.filter (fun item => isChild e.dirHierarchy item.dirHierarchy)).countP
        (fun c => decide (∃ x ∈ all, x.currentDir = d ∧ keptEntry all x ∧
          c.dirHierarchy <+: x.dirHierarchy)) := by
    rw [flattenForest_flattenMap, countP_flatten, List.map_map]
    have hcongr : ∀ c ∈ all.filter (fun item => isChild e.dirHierarchy item.dirHierarchy),
        ((fun l => l.countP (fun t => t.currentDir == d)) ∘
          (fun c => flattenForest (createDirAndNodesRecursive all c))) c =
        (fun c => if ∃ x ∈ all, x.currentDir = d ∧ keptEntry all x ∧
          c.dirHierarchy <+: x.dirHierarchy then 1 else 0) c := by
      intro c hc
      exact hch c hc
    rw [List.map_congr_left hcongr, sum_map_ite]
  have hQzero_of_noR :
      (¬ ∃ x ∈ all, x.currentDir = d ∧ keptEntry all x ∧ e.dirHierarchy <+: x.dirHierarchy) →
      (all.filter (fun item => isChild e.dirHierarchy item.dirHierarchy)).countP
        (fun c => decide (∃ x ∈ all, x.currentDir = d ∧ keptEntry all x ∧
          c.dirHierarchy <+: x.dirHierarchy)) = 0 := by
    intro hR
    apply List.countP_eq_zero.mpr
    intro c hc hQc
    rcases of_decide_eq_true hQc with ⟨x, hxall, hxcd, hxkept, hcpre⟩
    apply hR
    refine ⟨x, hxall, hxcd, hxkept, ?_⟩
    exact (isChild_iff.mp (List.mem_filter.mp hc).2).2.trans hcpre
  rw [createDirAndNodesRecursive_eq all e]
  by_cases helide : e.nodes.length = 0 ∧
      (all.filter (fun item => isChild e.dirHierarchy item.dirHierarchy)).length ≤ 1
  · rw [if_pos helide]
    rw [hchildsum]
    by_cases hR : ∃ x ∈ all, x.currentDir = d ∧ keptEntry all x ∧
        e.dirHierarchy <+: x.dirHierarchy
    · rw [if_pos hR]
      rcases hR with ⟨x, hxall, hxcd, hxkept, hxpre⟩
      have hxe : x ≠ e := by
        intro hxe
        exact hxkept (hxe ▸ helide)
      have hxlen : e.dirHierarchy.length < x.dirHierarchy.length := by
        rcases Nat.lt_or_ge e.dirHierarchy.length x.dirHierarchy.length with h | h
        · exact h
        · exfalso
          have hle := List.IsPrefix.length_le hxpre
          have heq : e.dirHierarchy = x.dirHierarchy :=
            List.IsPrefix.eq_of_length hxpre (by omega)
          exact hxe (entry_inj all H1 H2 x hxall e he heq.symm)
      exact children_countP_connecting all H1 H2 H3 e d hxall hxcd hxkept hxpre hxlen
    · rw [if_neg hR]
      exact hQzero_of_noR hR
  · rw [if_neg helide]
    have hkepte : keptEntry all e := helide
    rw [countP_flattenTree_single, hchildsum]
    by_cases hR : ∃ x ∈ all, x.currentDir = d ∧ keptEntry all x ∧
        e.dirHierarchy <+: x.dirHierarchy
    · rw [if_pos hR]
      rcases hR with ⟨x, hxall, hxcd, hxkept, hxpre⟩
      by_cases hxeq : x = e
      · have hzero : (all.filter (fun item => isChild e.dirHierarchy item.dirHierarchy)).countP
            (fun c => decide (∃ x' ∈ all, x'.currentDir = d ∧ keptEntry all x' ∧
              c.dirHierarchy <+: x'.dirHierarchy)) = 0 := by
          apply List.countP_eq_zero.mpr
          intro c hc hQc
          rcases of_decide_eq_true hQc with ⟨x', hx'all, hx'cd, -, hcpre⟩
          have hx'x : x' = x := entry_cd_inj all H2 x' hx'all x hxall (hx'cd.trans hxcd.symm)
          have hclen : c.dirHierarchy.length = e.dirHierarchy.length + 1 :=
            (isChild_iff.mp (List.mem_filter.mp hc).2).1
          have hle := List.IsPrefix.length_le hcpre
          rw [hx'x, hxeq] at hle
          omega
        rw [hzero, if_pos (show e.currentDir = d from hxeq ▸ hxcd)]
      · have hxlen : e.dirHierarchy.length < x.dirHierarchy.length := by
          rcases Nat.lt_or_ge e.dirHierarchy.length x.dirHierarchy.length with h | h
          · exact h
          · exfalso
            have hle := List.IsPrefix.length_le hxpre
            have heq : e.dirHierarchy = x.dirHierarchy :=
              List.IsPrefix.eq_of_length hxpre (by omega)
            exact hxeq (entry_inj all H1 H2 x hxall e he heq.symm)
        have hcdne : ¬ e.currentDir = d := by
          intro hcd
          exact hxeq (entry_cd_inj all H2 x hxall e he (hxcd.trans hcd.symm))
        rw [if_neg hcdne,
          children_countP_connecting all H1 H2 H3 e d hxall hxcd hxkept hxpre hxlen]
    · rw [if_neg hR]
      have hcdne : ¬ e.currentDir = d := by
        intro hcd
        exact hR ⟨e, he, hcd, hkepte, List.prefix_refl _⟩
      rw [if_neg hcdne, hQzero_of_noR hR]

theorem count_emitted (all : List DirAndNodes)
    (H1 : ∀ x ∈ all, x.dirHierarchy = strSplit '/' x.currentDir)
    (H2 : (all.map DirAndNodes.currentDir).Nodup)
    (H3 : ∀ x ∈ all, ∀ j, 1 ≤ j → j ≤ x.dirHierarchy.length →
      ∃ y ∈ all, y.dirHierarchy = x.dirHierarchy.take j) :
    ∀ (n : Nat) (e : DirAndNodes), e ∈ all → maxHierLen all - e.dirHierarchy.length ≤ n →
      ∀ (d : String),
        (flattenForest (createDirAndNodesRecursive all e)).countP (fun t => t.currentDir == d) =
          if ∃ x ∈ all, x.currentDir = d ∧ keptEntry all x ∧ e.dirHierarchy <+: x.dirHierarchy
          then 1 else 0 := by
  intro n
  induction n with
  | zero =>
    intro e he hn d
    apply count_emitted_step all H1 H2 H3 e he d
    intro c hc
    exfalso
    have hcall := List.mem_of_mem_filter hc
    have hclen := (isChild_iff.mp (List.mem_filter.mp hc).2).1
    have hbound := maxHierLen_bound all c hcall
    omega
  | succ n ih =>
    intro e he hn d
    apply count_emitted_step all H1 H2 H3 e he d
    intro c hc
    have hcall := List.mem_of_mem_filter hc
    have hclen := (isChild_iff.mp (List.mem_filter.mp hc).2).1
    exact ih c hcall (by omega) d

theorem strSplit_length_pos (s : String) : 1 ≤ (strSplit '/' s).length := by
  unfold strSplit
  rw [List.length_map]
  have := splitC_ne_nil '/' s.data
  cases h : splitC '/' s.data with
  | nil => exact absurd h this
  | cons a t => simp

theorem countDir_tree (g : Graph) (d : String) :
    (flattenForest (createDirAndNodesTree g)).countP (fun t => t.currentDir == d) =
      if ∃ x ∈ dirAndNodes g, x.currentDir = d ∧ keptEntry (dirAndNodes g) x then 1 else 0 := by
  have H1 : ∀ x ∈ dirAndNodes g, x.dirHierarchy = strSplit '/' x.currentDir :=
    fun x hx => (mem_dirAndNodes g hx).2.1
  have H2 := dirAndNodes_nodupCd g
  have H3 := dirAndNodes_ancClosed g
  show (flattenForest ((((dirAndNodes g).filter
      (fun d' => d'.dirHierarchy.length == 1)).map
        (createDirAndNodesRecursive (dirAndNodes g))).flatten)).countP
    (fun t => t.currentDir == d) = _
  rw [flattenForest_flattenMap, countP_flatten, List.map_map]
  have hcongr : ∀ r ∈ (dirAndNodes g).filter (fun d' => d'.dirHierarchy.length == 1),
      ((fun l => l.countP (fun t => t.currentDir == d)) ∘
        (fun c => flattenForest (createDirAndNodesRecursive (dirAndNodes g) c))) r =
      (fun r => if ∃ x ∈ dirAndNodes g, x.currentDir = d ∧ keptEntry (dirAndNodes g) x ∧
        r.dirHierarchy <+: x.dirHierarchy then 1 else 0) r := by
    intro r hr
    exact count_emitted (dirAndNodes g) H1 H2 H3 (maxHierLen (dirAndNodes g)) r
      (List.mem_of_mem_filter hr) (by omega) d
  rw [List.map_congr_left hcongr, sum_map_ite]
  by_cases hR : ∃ x ∈ dirAndNodes g, x.currentDir = d ∧ keptEntry (dirAndNodes g) x
  · rw [if_pos hR]
    rcases hR with ⟨x, hxall, hxcd, hxkept⟩
    have hxlen1 : 1 ≤ x.dirHierarchy.length := by
      rw [H1 x hxall]
      exact strSplit_length_pos x.currentDir
    obtain ⟨r, hrall, hrhier⟩ := H3 x hxall 1 (le_refl 1) hxlen1
    have hrlen : r.dirHierarchy.length = 1 := by
      rw [hrhier, List.length_take]
      omega
    have hroot : r ∈ (dirAndNodes g).filter (fun d' => d'.dirHierarchy.length == 1) :=
      List.mem_filter.mpr ⟨hrall, by rw [hrlen]; rfl⟩
    apply countP_eq_one_of_unique
    · exact List.Nodup.sublist (List.filter_sublist _) (List.Nodup.of_map _ H2)
    · exact hroot
    · apply decide_eq_true
      refine ⟨x, hxall, hxcd, hxkept, ?_⟩
      rw [hrhier]
      exact List.take_prefix _ _
    · intro r' hr' hQ
      rcases of_decide_eq_true hQ with ⟨x', hx'all, hx'cd, -, hpre⟩
      have hx'x : x' = x :=
        entry_cd_inj (dirAndNodes g) H2 x' hx'all x hxall (hx'cd.trans hxcd.symm)
      have hr'len : r'.dirHierarchy.length = 1 := by
        have := (List.mem_filter.mp hr').2
        simpa using this
      have htake := List.prefix_iff_eq_take.mp hpre
      rw [hx'x, hr'len] at htake
      have hr'r : r'.dirHierarchy = r.dirHierarchy := by
        rw [htake, hrhier]
      exact entry_inj (dirAndNodes g) H1 H2 r' (List.mem_of_mem_filter hr') r hrall hr'r
  · rw [if_neg hR]
    apply List.countP_eq_zero.mpr
    intro r hr hQ
    rcases of_decide_eq_true hQ with ⟨x, hxall, hxcd, hxkept, -⟩
    exact hR ⟨x, hxall, hxcd, hxkept⟩

theorem flattenF_entries (all : List DirAndNodes) :
    ∀ (fuel : Nat) (e : DirAndNodes), e ∈ all →
      ∀ t ∈ flattenForest (createDirAndNodesRecF all fuel e),
        ∃ x ∈ all, t.currentDir = x.currentDir ∧ t.nodes = x.nodes := by
  intro fuel
  induction fuel with
  | zero =>
    intro e he t ht
    rw [show createDirAndNodesRecF all 0 e = [] from rfl] at ht
    rw [show flattenForest [] = [] from rfl] at ht
    simp at ht
  | succ fuel ih =>
    intro e he t ht
    simp only [createDirAndNodesRecF] at ht
    by_cases helide : e.nodes.length = 0 ∧
        (all.filter (fun item => isChild e.dirHierarchy item.dirHierarchy)).length ≤ 1
    · rw [if_pos helide, flattenForest_flattenMap] at ht
      rcases List.mem_flatten.mp ht with ⟨l, hl, htl⟩
      rcases List.mem_map.mp hl with ⟨c, hc, rfl⟩
      exact ih c (List.mem_of_mem_filter hc) t htl
    · rw [if_neg helide] at ht
      rw [show flattenForest [(⟨e.currentDir, e.nodes,
          ((all.filter (fun item => isChild e.dirHierarchy item.dirHierarchy)).map
            (createDirAndNodesRecF all fuel)).flatten⟩ : DirAndNodesTree)] =
        flattenTree ⟨e.currentDir, e.nodes,
          ((all.filter (fun item => isChild e.dirHierarchy item.dirHierarchy)).map
            (createDirAndNodesRecF all fuel)).flatten⟩ from by
        show flattenTree _ ++ flattenForest [] = flattenTree _
        rw [show flattenForest [] = [] from rfl, List.append_nil]] at ht
      rw [flattenTree_mk] at ht
      rcases List.mem_cons.mp ht with rfl | ht
      · exact ⟨e, he, rfl, rfl⟩
      · rw [flattenForest_flattenMap] at ht
        rcases List.mem_flatten.mp ht with ⟨l, hl, htl⟩
        rcases List.mem_map.mp hl with ⟨c, hc, rfl⟩
        exact ih c (List.mem_of_mem_filter hc) t htl

theorem flatten_tree_entries (g : Graph) :
    ∀ t ∈ flattenForest (createDirAndNodesTree g),
      ∃ x ∈ dirAndNodes g, t.currentDir = x.currentDir ∧ t.nodes = x.nodes := by
  intro t ht
  have ht' : t ∈ flattenForest ((((dirAndNodes g).filter
      (fun d' => d'.dirHierarchy.length == 1)).map
        (createDirAndNodesRecursive (dirAndNodes g))).flatten) := ht
  rw [flattenForest_flattenMap] at ht'
  rcases List.mem_flatten.mp ht' with ⟨l, hl, htl⟩
  rcases List.mem_map.mp hl with ⟨r, hr, rfl⟩
  exact flattenF_entries (dirAndNodes g) (maxHierLen (dirAndNodes g) + 1) r
    (List.mem_of_mem_filter hr) t htl

/-- The entry that owns a node whose directory is `dd`. -/
theorem node_entry (g : Graph) {node : Node} (hn : node ∈ g.nodes) {dd : String}
    (hdp : getDirectoryPath node.path = some dd) :
    (⟨dd, strSplit '/' dd,
      g.nodes.filter (fun n2 => getDirectoryPath n2.path == some dd)⟩ : DirAndNodes) ∈
      dirAndNodes g ∧
    node ∈ g.nodes.filter (fun n2 => getDirectoryPath n2.path == some dd) := by
  have hddne : dd ≠ "" := by
    intro hcon
    rcases getDirectoryPath_norm hdp with hdot | hN
    · rw [hcon] at hdot
      exact absurd hdot (by decide)
    · rw [hcon] at hN
      have h1 := NormSegs_mem hN "" (by
        rw [show strSplit '/' "" = [""] from by decide]
        exact List.mem_singleton_self "")
      exact h1.1 rfl
  have hchain : dd ∈ dirChain dd := by
    apply (mem_dirChain_iff (getDirectoryPath_norm hdp) dd).mpr
    refine ⟨(strSplit '/' dd).length, strSplit_length_pos dd, le_refl _, ?_⟩
    rw [List.take_length, strJoin_strSplit]
  have hmem : dd ∈ allDir g :=
    (mem_allDir_iff g dd).mpr ⟨⟨node, hn, dd, hdp, hddne, hchain⟩, hddne⟩
  refine ⟨dirAndNodes_entry_of_cd g hmem, ?_⟩
  exact List.mem_filter.mpr ⟨hn, beq_iff_eq.mpr hdp⟩

/-- C3 counterexample: a graph whose only node sits at the single-segment path
`x` has an undefined computed directory; the directory forest is empty and the
node appears in zero tree nodes, not exactly one. -/
theorem tree_toplevel_node_missing_cex :
    getDirectoryPath "x" = none ∧
      createDirAndNodesTree ⟨[⟨"x", "x", false, false⟩], []⟩ = [] ∧
      (flattenForest (createDirAndNodesTree ⟨[⟨"x", "x", false, false⟩], []⟩)).countP
        (fun t => decide ((⟨"x", "x", false, false⟩ : Node) ∈ t.nodes)) = 0 :=
  ⟨by decide, rfl, rfl⟩

/-- C3 (amended): a node whose computed directory is defined appears in the
nodes list of exactly one tree node of the forest, namely one whose
`currentDir` equals that directory; a node whose computed directory is
`undefined` (a top-level single-segment path) appears in no tree node. -/
theorem tree_node_membership (g : Graph) (node : Node) (hn : node ∈ g.nodes) :
    (∀ dd, getDirectoryPath node.path = some dd →
      (flattenForest (createDirAndNodesTree g)).countP
          (fun t => decide (node ∈ t.nodes)) = 1 ∧
        ∀ t ∈ flattenForest (createDirAndNodesTree g), node ∈ t.nodes → t.currentDir = dd) ∧
    (getDirectoryPath node.path = none →
      (flattenForest (createDirAndNodesTree g)).countP
        (fun t => decide (node ∈ t.nodes)) = 0) := by
  constructor
  · intro dd hdp
    have hent := node_entry g hn hdp
    have hincd : ∀ t ∈ flattenForest (createDirAndNodesTree g), node ∈ t.nodes →
        t.currentDir = dd := by
      intro t ht htn
      rcases flatten_tree_entries g t ht with ⟨x, hxall, hcd, hnodes⟩
      rw [hnodes] at htn
      rw [(mem_dirAndNodes g hxall).2.2] at htn
      have hbeq := (List.mem_filter.mp htn).2
      have := beq_iff_eq.mp hbeq
      rw [hdp, Option.some_inj] at this
      rw [hcd, ← this]
    constructor
    · have hcongr : (flattenForest (createDirAndNodesTree g)).countP
          (fun t => decide (node ∈ t.nodes)) =
          (flattenForest (createDirAndNodesTree g)).countP (fun t => t.currentDir == dd) := by
        apply List.countP_congr
        intro t ht
        constructor
        · intro hmem
          exact beq_iff_eq.mpr (hincd t ht (of_decide_eq_true hmem))
        · intro hbeq
          apply decide_eq_true
          rcases flatten_tree_entries g t ht with ⟨x, hxall, hcd, hnodes⟩
          have hxcd : x.currentDir = dd := by
            rw [← hcd]
            exact beq_iff_eq.mp hbeq
          rw [hnodes, (mem_dirAndNodes g hxall).2.2, hxcd]
          exact hent.2
      rw [hcongr, countDir_tree]
      rw [if_pos ?_]
      refine ⟨⟨dd, strSplit '/' dd,
        g.nodes.filter (fun n2 => getDirectoryPath n2.path == some dd)⟩, hent.1, rfl, ?_⟩
      rintro ⟨hlen, -⟩
      rw [show (⟨dd, strSplit '/' dd,
        g.nodes.filter (fun n2 => getDirectoryPath n2.path == some dd)⟩ :
          DirAndNodes).nodes = g.nodes.filter (fun n2 => getDirectoryPath n2.path == some dd)
        from rfl] at hlen
      rw [List.length_eq_zero] at hlen
      rw [hlen] at hent
      exact absurd hent.2 (by simp)
    · exact hincd
  · intro hdp
    apply List.countP_eq_zero.mpr
    intro t ht hmem
    rcases flatten_tree_entries g t ht with ⟨x, hxall, hcd, hnodes⟩
    have htn := of_decide_eq_true hmem
    rw [hnodes, (mem_dirAndNodes g hxall).2.2] at htn
    have hbeq := (List.mem_filter.mp htn).2
    have := beq_iff_eq.mp hbeq
    rw [hdp] at this
    exact absurd this (by simp)

/-- Witness for C3: in the two-node fixture the node at `a/b/y` lies in
exactly one tree node, the one for directory `a/b`. -/
theorem tree_node_membership_witness :
    (flattenForest (createDirAndNodesTree
        ⟨[⟨"a/x", "x", false, false⟩, ⟨"a/b/y", "y", false, false⟩], []⟩)).countP
      (fun t => decide ((⟨"a/b/y", "y", false, false⟩ : Node) ∈ t.nodes)) = 1 :=
  ((tree_node_membership ⟨[⟨"a/x", "x", false, false⟩, ⟨"a/b/y", "y", false, false⟩], []⟩
    ⟨"a/b/y", "y", false, false⟩ (by decide)).1 "a/b" (by decide)).1

/-- C4: a directory record owning no file and having at most one child is
never emitted as a tree node (count zero for its directory string), while a
record owning a file or having two or more children is always emitted exactly
once; on the fixtures, `a/b/c/x` and `a/b/c/y` collapse to the single root
`a/b/c`, and `a/x` with `a/b/y` keep `a` (which owns a file) with the single
child `a/b`. -/
theorem tree_collapsing :
    (∀ (g : Graph), ∀ e ∈ dirAndNodes g,
      (keptEntry (dirAndNodes g) e →
        (flattenForest (createDirAndNodesTree g)).countP
          (fun t => t.currentDir == e.currentDir) = 1) ∧
      (¬ keptEntry (dirAndNodes g) e →
        (flattenForest (createDirAndNodesTree g)).countP
          (fun t => t.currentDir == e.currentDir) = 0)) ∧
    createDirAndNodesTree ⟨[⟨"a/b/c/x", "x", false, false⟩, ⟨"a/b/c/y", "y", false, false⟩],
        []⟩ =
      [⟨"a/b/c", [⟨"a/b/c/x", "x", false, false⟩, ⟨"a/b/c/y", "y", false, false⟩], []⟩] ∧
    createDirAndNodesTree ⟨[⟨"a/x", "x", false, false⟩, ⟨"a/b/y", "y", false, false⟩], []⟩ =
      [⟨"a", [⟨"a/x", "x", false, false⟩], [⟨"a/b", [⟨"a/b/y", "y", false, false⟩], []⟩]⟩] := by
  refine ⟨?_, rfl, rfl⟩
  intro g e he
  constructor
  · intro hkept
    rw [countDir_tree]
    rw [if_pos ⟨e, he, rfl, hkept⟩]
  · intro hnkept
    rw [countDir_tree]
    rw [if_neg ?_]
    rintro ⟨x, hxall, hxcd, hxkept⟩
    have hxe : x = e := entry_cd_inj (dirAndNodes g) (dirAndNodes_nodupCd g) x hxall e he hxcd
    exact hnkept (hxe ▸ hxkept)

/-- Witness for C4: in the collapsing fixture the record for `a` (no direct
file, one child) is emitted zero times and the record for `a/b/c` exactly
once. -/
theorem tree_collapsing_witness :
    (flattenForest (createDirAndNodesTree
        ⟨[⟨"a/b/c/x", "x", false, false⟩, ⟨"a/b/c/y", "y", false, false⟩], []⟩)).countP
      (fun t => t.currentDir ==
        (⟨"a", ["a"], []⟩ : DirAndNodes).currentDir) = 0 := by
  have he : (⟨"a", ["a"], []⟩ : DirAndNodes) ∈
      dirAndNodes ⟨[⟨"a/b/c/x", "x", false, false⟩, ⟨"a/b/c/y", "y", false, false⟩], []⟩ := by
    decide
  exact (tree_collapsing.1
    ⟨[⟨"a/b/c/x", "x", false, false⟩, ⟨"a/b/c/y", "y", false, false⟩], []⟩
    ⟨"a", ["a"], []⟩ he).2 (by decide)
